import Mathlib

/-!
Shallow embedding of `hdbscan/plots.py`: the condensed-tree, single-linkage
and minimum-spanning-tree wrappers and their algorithmic cores (tree
traversals, icicle layout, excess-of-mass cluster selection).

Conventions of the embedding:
* numpy float64 lambda values and stabilities are modelled as `Rat`
  (the claims under study are about comparisons, sums and means, all exact);
* numpy structured arrays are lists of records in row order;
* Python dicts keyed by node id are functions `Nat → Option Rat`
  (`none` models a missing key, so a lookup of a missing key makes the
  whole computation fail, as a KeyError does);
* the two unbounded Python loops (the BFS `while` loop and the leaf DFS
  recursion) terminate on forest-shaped inputs only; they are embedded
  with an explicit fuel argument large enough that, under the
  forest-shapedness hypotheses of the claims, the fuel is never exhausted
  (this is proved, not assumed, in the lemmas below).
-/

namespace HdbscanPlots

/-- One row of the condensed-tree structured array:
`child` leaves `parent` at density `lambda_val`, carrying `child_size` points. -/
structure CondensedTreeEdge where
  parent : Nat
  child : Nat
  lambda_val : Rat
  child_size : Nat
  deriving DecidableEq, Repr

abbrev CTree := List CondensedTreeEdge

/-- One merge record of the scipy linkage format: columns 0,1 are the merged
children, column 2 the merge distance, column 3 the size of the new cluster. -/
structure SingleLinkageRow where
  left : Nat
  right : Nat
  distance : Rat
  size : Nat
  deriving DecidableEq, Repr

/-- One BFS expansion in `_bfs_from_cluster_tree`:
`tree['child'][np.in1d(tree['parent'], to_process)].tolist()` —
the children, in row order, of all rows whose parent is in the frontier. -/
def clusterStep (tree : CTree) (to_process : List Nat) : List Nat :=
  (tree.filter (fun e => to_process.contains e.parent)).map (fun e => e.child)

/-- The `while to_process:` loop shared by both BFS functions: collect the
frontier, expand it, repeat.  `fuel` bounds the number of iterations; the
Python loop has no bound and diverges on cyclic input, the embedding instead
returns the part collected so far (the claims only concern forest inputs,
where the chosen fuel is proved sufficient). -/
def bfsAux (step : List Nat → List Nat) : Nat → List Nat → List Nat
  | 0, _ => []
  | fuel + 1, to_process =>
    if to_process.isEmpty then []
    else to_process ++ bfsAux step fuel (step to_process)

/-- `_bfs_from_cluster_tree(tree, bfs_root)` from plots.py. -/
def bfs_from_cluster_tree (tree : CTree) (bfs_root : Nat) : List Nat :=
  bfsAux (clusterStep tree) (tree.length + 2) [bfs_root]

/-- One BFS expansion in `_bfs_from_linkage_tree`: keep the internal members
of the frontier, translate them to merge-record rows, and emit each row's two
children (`hierarchy[to_process, :2].flatten()`).  An out-of-range row index
raises in Python; it contributes nothing here and the claims only apply to
well-formed linkages where every index is in range. -/
def rowChildren (hierarchy : List SingleLinkageRow) (i : Nat) : List Nat :=
  match hierarchy[i]? with
  | some r => [r.left, r.right]
  | none => []

def linkageStep (hierarchy : List SingleLinkageRow) (num_points : Nat)
    (to_process : List Nat) : List Nat :=
  ((to_process.filterMap
      (fun x => if num_points ≤ x then some (x - num_points) else none)).flatMap
    (rowChildren hierarchy))

/-- `_bfs_from_linkage_tree(hierarchy, bfs_root)` from plots.py:
`dim = hierarchy.shape[0]; max_node = 2*dim; num_points = max_node - dim + 1`. -/
def bfs_from_linkage_tree (hierarchy : List SingleLinkageRow) (bfs_root : Nat) : List Nat :=
  let dim := hierarchy.length
  let max_node := 2 * dim
  let num_points := max_node - dim + 1
  bfsAux (linkageStep hierarchy num_points) (dim + 2) [bfs_root]

/-- `_recurse_leaf_dfs(cluster_tree, current_node)` from plots.py, with fuel
replacing the unbounded Python recursion (sufficient fuel is proved under the
forest hypotheses; the fuel-out value is never reached there). -/
def recurse_leaf_dfs (cluster_tree : CTree) : Nat → Nat → List Nat
  | 0, current_node => [current_node]
  | fuel + 1, current_node =>
    let children := (cluster_tree.filter (fun e => e.parent = current_node)).map
      (fun e => e.child)
    if children.isEmpty then [current_node]
    else (children.map (recurse_leaf_dfs cluster_tree fuel)).flatten

/-- Minimum of a list of naturals; `none` on the empty list, where numpy
`.min()` raises (the `Option` records that failure). -/
def listMin : List Nat → Option Nat
  | [] => none
  | a :: l => some (match listMin l with
      | none => a
      | some m => min a m)

/-- Maximum of a list of naturals, `none` on the empty list. -/
def listMax : List Nat → Option Nat
  | [] => none
  | a :: l => some (match listMax l with
      | none => a
      | some m => max a m)

/-- Maximum of a list of rationals, `none` on the empty list, where
`np.max` raises. -/
def listMaxQ : List Rat → Option Rat
  | [] => none
  | a :: l => some (match listMaxQ l with
      | none => a
      | some m => max a m)

/-- `_get_leaves(condensed_tree)` from plots.py: restrict to the cluster tree
(`child_size > 1`), take the minimum parent as root, DFS for leaves.  The
minimum of an empty parent array raises in Python, giving `none` here. -/
def get_leaves (condensed_tree : CTree) : Option (List Nat) :=
  match listMin ((condensed_tree.filter (fun e => 1 < e.child_size)).map
      (fun e => e.parent)) with
  | none => none
  | some root =>
    some (recurse_leaf_dfs (condensed_tree.filter (fun e => 1 < e.child_size))
      ((condensed_tree.filter (fun e => 1 < e.child_size)).length + 1) root)

/-- Insertion step of a descending insertion sort on naturals. -/
def insertDesc (a : Nat) : List Nat → List Nat
  | [] => [a]
  | b :: l => if b ≤ a then a :: b :: l else b :: insertDesc a l

/-- `sorted(keys, reverse=True)`: a descending sort. -/
def sortDesc (l : List Nat) : List Nat := l.foldr insertDesc []

/-- Insertion step of a stable insertion sort of condensed-tree rows by
ascending `lambda_val`. -/
def insertByLambda (a : CondensedTreeEdge) : CTree → CTree
  | [] => [a]
  | b :: l => if a.lambda_val ≤ b.lambda_val then a :: b :: l else b :: insertByLambda a l

/-- `np.argsort(c_children['lambda_val'])` followed by row indexing: the rows
in ascending `lambda_val` order.  (numpy argsort is unstable on ties; the bar
output below is invariant under tie order, so a stable sort is faithful.) -/
def sortByLambda (l : CTree) : CTree := l.foldr insertByLambda []

/-- One iteration of the `_select_clusters` loop.  The state is the pair of
the (mutable) stability map and the `is_cluster` map.  In the first branch
the node loses cluster status and its stability is overwritten by the sum of
its cluster-tree children's stabilities; in the second the node keeps cluster
status and every strict BFS descendant loses it. -/
def subtreeStability (cluster_tree : CTree) (stab : Nat → Rat) (node : Nat) : Rat :=
  ((cluster_tree.filter (fun e => e.parent = node)).map (fun e => stab e.child)).sum

def selectStep (cluster_tree : CTree) (st : (Nat → Rat) × (Nat → Bool)) (node : Nat) :
    (Nat → Rat) × (Nat → Bool) :=
  if st.1 node < subtreeStability cluster_tree st.1 node then
    (fun m => if m = node then subtreeStability cluster_tree st.1 node else st.1 m,
     fun m => if m = node then false else st.2 m)
  else
    (st.1,
     fun m => if m ∈ bfs_from_cluster_tree cluster_tree node ∧ m ≠ node then false
              else st.2 m)

/-- `CondensedTree._select_clusters` from plots.py, with the stability map
(computed in the source by the external `compute_stability` collaborator)
taken as an input: `keys` is the key list of the stability dict and
`stability` its value function.  `node_list = sorted(stability.keys(),
reverse=True)[:-1]` drops the smallest key (the root); `is_cluster` starts
true on `node_list`; the final list keeps the node-list order.  (Python may
insert extra `False` entries for BFS descendants outside `node_list`; those
can never be returned, so filtering `node_list` is exact.) -/
def select_clusters (tree : CTree) (keys : List Nat) (stability : Nat → Rat) : List Nat :=
  let cluster_tree := tree.filter (fun e => 1 < e.child_size)
  let node_list := (sortDesc keys).dropLast
  let final := node_list.foldl (selectStep cluster_tree)
    (stability, fun n => decide (n ∈ node_list))
  node_list.filter (fun n => final.2 n)

/-- The cluster-tree node ids of a condensed tree: every id appearing as a
parent, or as a child with `child_size > 1`. -/
def clusterNodeIds (tree : CTree) : List Nat :=
  ((tree.map (fun e => e.parent)) ++
    ((tree.filter (fun e => 1 < e.child_size)).map (fun e => e.child))).dedup

/-- Specification-side cluster selection, following the words of the spec:
process the cluster-tree node ids excluding the root (the minimum parent id)
in descending order, with the same per-node excess-of-mass step. -/
def selectClustersSpec (tree : CTree) (stability : Nat → Rat) : List Nat :=
  let cluster_tree := tree.filter (fun e => 1 < e.child_size)
  let root := (listMin (tree.map (fun e => e.parent))).getD 0
  let node_list := (sortDesc (clusterNodeIds tree)).filter (fun n => n ≠ root)
  let final := node_list.foldl (selectStep cluster_tree)
    (stability, fun n => decide (n ∈ node_list))
  node_list.filter (fun n => final.2 n)

/-- The two coordinate dicts built by `get_plot_data`:
`cluster_x_coords` and `cluster_y_coords`. -/
structure CoordState where
  x : Nat → Option Rat
  y : Nat → Option Rat

/-- The body of the first `get_plot_data` loop for one value of `cluster`:
take the cluster-tree rows under `cluster`; with more than one such row,
destructure into exactly two (three or more raise ValueError, hence `none`),
set the node's x to the mean of the children's x (a missing child x is a
KeyError, hence `none`) and each child's y to its split lambda. -/
def coordStep (tree : CTree) (st : CoordState) (cluster : Nat) : Option CoordState :=
  if 1 < (tree.filter (fun e => e.parent = cluster ∧ 1 < e.child_size)).length then
    match tree.filter (fun e => e.parent = cluster ∧ 1 < e.child_size) with
    | [l, r] =>
      match st.x l.child, st.x r.child with
      | some xl, some xr =>
        some { x := fun m => if m = cluster then some ((xl + xr) / 2) else st.x m,
               y := fun m => if m = r.child then some r.lambda_val
                     else if m = l.child then some l.lambda_val
                     else st.y m }
      | _, _ => none
    | _ => none
  else some st

/-- The first `get_plot_data` loop over `range(last_leaf, root - 1, -1)`. -/
def coordsLoop (tree : CTree) : List Nat → CoordState → Option CoordState
  | [], st => some st
  | c :: rest, st =>
    match coordStep tree st c with
    | none => none
    | some st2 => coordsLoop tree rest st2

/-- `range(hi, lo - 1, -1)`: the ids from `hi` down to `lo`. -/
def rangeDesc (hi lo : Nat) : List Nat := (List.range' lo (hi + 1 - lo)).reverse

/-- `dict(zip(leaves, [leaf_separation * x for x in range(len(leaves))]))`:
the i-th leaf sits at `i * leaf_separation` (on a duplicated leaf the last
zip entry wins, as in a Python dict). -/
def leafXInit (leaves : List Nat) (leaf_separation : Rat) : Nat → Option Rat :=
  fun n =>
    match ((leaves.zip (List.range leaves.length)).filter (fun p => p.1 = n)).getLast? with
    | some p => some (leaf_separation * (p.2 : Rat))
    | none => none

/-- The leaf/root initialisation and first loop of `get_plot_data`: returns
the cluster coordinate maps. -/
def cluster_coords (tree : CTree) (leaf_separation : Rat) : Option CoordState :=
  match get_leaves tree with
  | none => none
  | some leaves =>
    match listMax (tree.map (fun e => e.parent)) with
    | none => none
    | some last_leaf =>
      match listMin (tree.map (fun e => e.parent)) with
      | none => none
      | some root =>
        coordsLoop tree (rangeDesc last_leaf root)
          { x := leafXInit leaves leaf_separation
            y := fun m => if m = root then some 0 else none }

/-- The four parallel bar lists accumulated by `get_plot_data`. -/
structure BarAcc where
  bar_centers : List Rat
  bar_tops : List Rat
  bar_bottoms : List Rat
  bar_widths : List Rat
  deriving DecidableEq, Repr

/-- The inner bar-emission loop of `get_plot_data` for one cluster, linear
(`log_size=False`) size scale: walk the children in ascending lambda order;
on a lambda change emit one bar (center, top height, bottom, width = current
running size); then subtract the departing `child_size` from the running size
and advance the current lambda.  Returns the accumulator plus the final
running size and lambda. -/
def barsFold (center : Rat) : CTree → Rat → Rat → BarAcc → BarAcc × Rat × Rat
  | [], current_lambda, current_size, acc => (acc, current_size, current_lambda)
  | row :: rest, current_lambda, current_size, acc =>
    let acc2 := if row.lambda_val ≠ current_lambda then
        { bar_centers := acc.bar_centers ++ [center]
          bar_tops := acc.bar_tops ++ [row.lambda_val - current_lambda]
          bar_bottoms := acc.bar_bottoms ++ [current_lambda]
          bar_widths := acc.bar_widths ++ [current_size] }
      else acc
    barsFold center rest row.lambda_val (current_size - (row.child_size : Rat)) acc2

/-- The same inner loop with `log_size=True`: the code keeps the running size
in log scale and updates it by
`current_size = np.log(np.exp(current_size) - row['child_size'])` — the
subtraction happens in linear space and the result is re-logged.  The real
log and exp do not exist on `Rat`; they are abstracted as a pair of functions
`lg`/`ex`, about which the claim only needs `ex (lg q) = q`. -/
def barsFoldLog (lg ex : Rat → Rat) (center : Rat) :
    CTree → Rat → Rat → BarAcc → BarAcc × Rat × Rat
  | [], current_lambda, current_size, acc => (acc, current_size, current_lambda)
  | row :: rest, current_lambda, current_size, acc =>
    let acc2 := if row.lambda_val ≠ current_lambda then
        { bar_centers := acc.bar_centers ++ [center]
          bar_tops := acc.bar_tops ++ [row.lambda_val - current_lambda]
          bar_bottoms := acc.bar_bottoms ++ [current_lambda]
          bar_widths := acc.bar_widths ++ [current_size] }
      else acc
    barsFoldLog lg ex center rest row.lambda_val
      (lg (ex current_size - (row.child_size : Rat))) acc2

/-- The running linear-space size sequence of the bar loop: the initial size
followed by the value after each departing child is subtracted. -/
def runningSizes : Rat → CTree → List Rat
  | s, [] => [s]
  | s, row :: rest => s :: runningSizes (s - (row.child_size : Rat)) rest

/-- Accumulator of the second `get_plot_data` loop: the bar lists and the
`cluster_bounds` dict (kept as an association list in insertion order). -/
structure PlotAcc where
  bars : BarAcc
  cluster_bounds : List (Nat × Rat × Rat × Rat × Rat)
  deriving DecidableEq, Repr

/-- The body of the second `get_plot_data` loop for one cluster `c`: compute
the bounds entry (left, right, bottom, top) and run the bar loop.  A missing
y or x coordinate is a KeyError and `np.max` of an empty child list raises;
both give `none`. -/
def boundsBarsStep (tree : CTree) (scaling : Rat) (st : CoordState)
    (acc : PlotAcc) (c : Nat) : Option PlotAcc :=
  let c_children := tree.filter (fun e => e.parent = c)
  let current_size : Rat := (c_children.map (fun e => (e.child_size : Rat))).sum
  match st.y c, st.x c, listMaxQ (c_children.map (fun e => e.lambda_val)) with
  | some current_lambda, some xc, some top =>
    let entry := (c, xc * scaling - current_size / 2, xc * scaling + current_size / 2,
      current_lambda, top)
    let out := barsFold (xc * scaling) (sortByLambda c_children) current_lambda
      current_size acc.bars
    some { bars := out.1, cluster_bounds := acc.cluster_bounds ++ [entry] }
  | _, _, _ => none

/-- The second `get_plot_data` loop over `range(last_leaf, root - 1, -1)`. -/
def boundsBarsLoop (tree : CTree) (scaling : Rat) (st : CoordState) :
    List Nat → PlotAcc → Option PlotAcc
  | [], acc => some acc
  | c :: rest, acc =>
    match boundsBarsStep tree scaling st acc c with
    | none => none
    | some acc2 => boundsBarsLoop tree scaling st rest acc2

/-- `np.sign` on a rational. -/
def signQ (q : Rat) : Rat := if 0 < q then 1 else if q < 0 then -1 else 0

/-- The third `get_plot_data` loop (`log_size=False`): one horizontal
connector per cluster-tree row, from the parent's scaled x to the child's
scaled x offset by half the child's size toward the parent, at the child's
split lambda. -/
def linesLoop (st : CoordState) (scaling : Rat) :
    CTree → Option (List (Rat × Rat) × List (Rat × Rat))
  | [] => some ([], [])
  | row :: rest => do
    let xc ← st.x row.child
    let xp ← st.x row.parent
    let yc ← st.y row.child
    let sign := signQ (xc - xp)
    let out ← linesLoop st scaling rest
    some ((xp * scaling, xc * scaling + sign * ((row.child_size : Rat) / 2)) :: out.1,
      (yc, yc) :: out.2)

/-- The dict returned by `CondensedTree.get_plot_data`. -/
structure PlotData where
  bar_centers : List Rat
  bar_tops : List Rat
  bar_bottoms : List Rat
  bar_widths : List Rat
  line_xs : List (Rat × Rat)
  line_ys : List (Rat × Rat)
  cluster_bounds : List (Nat × Rat × Rat × Rat × Rat)
  deriving DecidableEq, Repr

/-- `scaling = np.sum(raw_tree[raw_tree.parent == root].child_size)` (linear
size scale). -/
def scalingOf (tree : CTree) (root : Nat) : Rat :=
  ((tree.filter (fun e => e.parent = root)).map (fun e => (e.child_size : Rat))).sum

/-- `CondensedTree.get_plot_data(leaf_separation, log_size=False)` from
plots.py.  Every Python failure mode (min or max of an empty array, a dict
KeyError, the two-element destructuring of a longer split) yields `none`. -/
def get_plot_data (tree : CTree) (leaf_separation : Rat) : Option PlotData :=
  match cluster_coords tree leaf_separation with
  | none => none
  | some st =>
    match listMax (tree.map (fun e => e.parent)) with
    | none => none
    | some last_leaf =>
      match listMin (tree.map (fun e => e.parent)) with
      | none => none
      | some root =>
        match boundsBarsLoop tree (scalingOf tree root) st (rangeDesc last_leaf root)
            ⟨⟨[], [], [], []⟩, []⟩ with
        | none => none
        | some acc =>
          match linesLoop st (scalingOf tree root)
              (tree.filter (fun e => 1 < e.child_size)) with
          | none => none
          | some lines =>
            some { bar_centers := acc.bars.bar_centers
                   bar_tops := acc.bars.bar_tops
                   bar_bottoms := acc.bars.bar_bottoms
                   bar_widths := acc.bars.bar_widths
                   line_xs := lines.1
                   line_ys := lines.2
                   cluster_bounds := acc.cluster_bounds }

/-- Which 2D projection `MinimumSpanningTree.plot` would perform. -/
inductive ProjectionKind where
  | identityCopy
  | tsneDirect
  | pcaThenTsne
  deriving DecidableEq, Repr

/-- The control flow of `MinimumSpanningTree.plot` up to the projection:
the matplotlib import guard, then the 32767-point guard (a warning and a
plain `None` return, not an exception), then the choice of projection. -/
def mst_plot (matplotlib_available : Bool) (n_points n_dims : Nat) :
    Except String (Option ProjectionKind) :=
  if matplotlib_available then
    if 32767 < n_points then Except.ok none
    else Except.ok (some (if 2 < n_dims then
      (if 32 < n_dims then ProjectionKind.pcaThenTsne else ProjectionKind.tsneDirect)
      else ProjectionKind.identityCopy))
  else Except.error
    "You must install the matplotlib library to plot the minimum spanning tree."

/-- The control flow of `CondensedTree.plot` up to the numeric layout:
the matplotlib import guard, then the call to `get_plot_data`.  The numeric
layout itself never consults the renderer. -/
def condensed_tree_plot (matplotlib_available : Bool) (tree : CTree)
    (leaf_separation : Rat) : Except String (Option PlotData) :=
  if matplotlib_available then Except.ok (get_plot_data tree leaf_separation)
  else Except.error
    "You must install the matplotlib library to plot the condensed tree. Use get_plot_data to calculate the relevant data without plotting."

/-- Paths of length `k` along the relation `E` (from ancestor to descendant). -/
inductive ReachN (E : Nat → Nat → Prop) : Nat → Nat → Nat → Prop
  | refl (a : Nat) : ReachN E 0 a a
  | step {a b c : Nat} {k : Nat} (hab : E a b) (hbc : ReachN E k b c) : ReachN E (k + 1) a c

/-- `c` is reachable from `a` (in zero or more `E`-steps). -/
def Reaches (E : Nat → Nat → Prop) (a c : Nat) : Prop := ∃ k, ReachN E k a c

/-- The successive frontiers of the BFS loop. -/
def levels (step : List Nat → List Nat) : Nat → List Nat → List Nat
  | 0, F => F
  | k + 1, F => levels step k (step F)

/-- `p` is the recorded parent of `c` in the condensed-tree encoding. -/
def edgeRel (tree : CTree) (p c : Nat) : Prop :=
  ∃ e ∈ tree, e.parent = p ∧ e.child = c

def maxChild (tree : CTree) : Nat := (tree.map (fun e => e.child)).foldr max 0

/-- The decreasing measure for id-increasing condensed trees. -/
def muC (tree : CTree) : Nat → Nat := fun n => maxChild tree + 1 - n

/-- The node set of the condensed-tree forest. -/
def forestNodes (tree : CTree) : Finset Nat :=
  (tree.map (fun e => e.parent)).toFinset ∪ (tree.map (fun e => e.child)).toFinset

/-- `p` is the implicit parent (merge node `num_points + i`) of `c` in the
linkage encoding. -/
def linkRel (hierarchy : List SingleLinkageRow) (p c : Nat) : Prop :=
  ∃ i r, hierarchy[i]? = some r ∧ p = hierarchy.length + 1 + i ∧
    (c = r.left ∨ c = r.right)

/-- All child entries of a linkage, in row order. -/
def linkChildren (hierarchy : List SingleLinkageRow) : List Nat :=
  hierarchy.flatMap (fun r => [r.left, r.right])

/-- `n` has no children in the (already pruned) cluster tree. -/
def noClusterChildren (cluster_tree : CTree) (n : Nat) : Prop :=
  ∀ e ∈ cluster_tree, e.parent ≠ n

/-- The spec example: root `5`, leaf children `6` (size 3, lambda 1) and `7`
(size 2, lambda 3/2). -/
def exTree1 : CTree := [⟨5, 6, 1, 3⟩, ⟨5, 7, 3/2, 2⟩]

/-- The spec example stability values `{6: 1.2, 7: 0.5}`. -/
def exStab1 : Nat → Rat := fun n => if n = 6 then 12/10 else if n = 7 then 5/10 else 0

/-- Four points; root `4` has exactly one cluster child `5` (points 0,1 drop
out of 4, points 2,3 drop out of 5). -/
def exTree2 : CTree :=
  [⟨4, 5, 1, 2⟩, ⟨4, 0, 1, 1⟩, ⟨4, 1, 1, 1⟩, ⟨5, 2, 2, 1⟩, ⟨5, 3, 2, 1⟩]

/-- Root `4` with three cluster children `5`, `6`, `7`. -/
def exTree3 : CTree :=
  [⟨4, 5, 1, 2⟩, ⟨4, 6, 1, 2⟩, ⟨4, 7, 1, 2⟩, ⟨5, 0, 2, 1⟩, ⟨5, 1, 2, 1⟩,
   ⟨6, 2, 2, 1⟩, ⟨6, 3, 2, 1⟩, ⟨7, 8, 2, 1⟩, ⟨7, 9, 2, 1⟩]

/-- A well-formed binary condensed tree on four points. -/
def exTree4 : CTree :=
  [⟨4, 5, 1, 2⟩, ⟨4, 6, 1, 2⟩, ⟨5, 0, 2, 1⟩, ⟨5, 1, 5/2, 1⟩,
   ⟨6, 2, 3, 1⟩, ⟨6, 3, 3, 1⟩]

/-- A linkage over four points: merge 0+1, merge 2+3, merge the two merges. -/
def exLinkage1 : List SingleLinkageRow := [⟨0, 1, 1, 2⟩, ⟨2, 3, 1, 2⟩, ⟨4, 5, 2, 4⟩]

/-- A condensed tree with only singleton edges (empty cluster tree). -/
def exTree5 : CTree := [⟨4, 0, 1, 1⟩, ⟨4, 1, 1, 1⟩]

/-- `c_children = raw_tree[raw_tree.parent == c]` for a fixed cluster `c`. -/
def nodeChildren (tree : CTree) (c : Nat) : CTree :=
  tree.filter (fun e => e.parent = c)

/-- `current_size = np.sum(c_children.child_size)`, the bar loop's initial
running size. -/
def nodeSizeSum (tree : CTree) (c : Nat) : Rat :=
  ((nodeChildren tree c).map (fun e => (e.child_size : Rat))).sum

/-! ### Small lemmas about the list helpers -/

theorem listMin_eq_none_iff {l : List Nat} : listMin l = none ↔ l = [] := by
  cases l <;> simp [listMin]

theorem listMin_mem {l : List Nat} {m : Nat} (h : listMin l = some m) : m ∈ l := by
  induction l generalizing m with
  | nil => simp [listMin] at h
  | cons a t ih =>
    cases ht : listMin t with
    | none =>
      rw [listMin_eq_none_iff] at ht
      subst ht; simp [listMin] at h; simp [h]
    | some mt =>
      simp [listMin, ht] at h
      rcases min_choice a mt with hm | hm
      · simp [← h, hm]
      · right; rw [← h, hm]; exact ih ht

theorem listMin_le {l : List Nat} {m : Nat} (h : listMin l = some m) :
    ∀ x ∈ l, m ≤ x := by
  induction l generalizing m with
  | nil => simp
  | cons a t ih =>
    intro x hx
    cases ht : listMin t with
    | none =>
      rw [listMin_eq_none_iff] at ht
      subst ht; simp [listMin] at h
      simp at hx; omega
    | some mt =>
      simp [listMin, ht] at h
      rcases List.mem_cons.mp hx with rfl | hx
      · omega
      · exact le_trans (by omega) (ih ht x hx)

theorem listMax_eq_none_iff {l : List Nat} : listMax l = none ↔ l = [] := by
  cases l <;> simp [listMax]

theorem listMax_mem {l : List Nat} {m : Nat} (h : listMax l = some m) : m ∈ l := by
  induction l generalizing m with
  | nil => simp [listMax] at h
  | cons a t ih =>
    cases ht : listMax t with
    | none =>
      rw [listMax_eq_none_iff] at ht
      subst ht; simp [listMax] at h; simp [h]
    | some mt =>
      simp [listMax, ht] at h
      rcases max_choice a mt with hm | hm
      · simp [← h, hm]
      · right; rw [← h, hm]; exact ih ht

theorem le_listMax {l : List Nat} {m : Nat} (h : listMax l = some m) :
    ∀ x ∈ l, x ≤ m := by
  induction l generalizing m with
  | nil => simp
  | cons a t ih =>
    intro x hx
    cases ht : listMax t with
    | none =>
      rw [listMax_eq_none_iff] at ht
      subst ht; simp [listMax] at h
      simp at hx; omega
    | some mt =>
      simp [listMax, ht] at h
      rcases List.mem_cons.mp hx with rfl | hx
      · omega
      · exact le_trans (ih ht x hx) (by omega)

theorem pairwise_lt_range'1 : ∀ (n s : Nat), (List.range' s n).Pairwise (· < ·) := by
  intro n
  induction n with
  | zero => intro s; simp
  | succ n ih =>
    intro s
    rw [List.range'_succ]
    refine List.Pairwise.cons ?_ (ih (s + 1))
    intro m hm
    have := (List.mem_range'_1.mp hm).1
    omega

theorem mem_rangeDesc {hi lo c : Nat} : c ∈ rangeDesc hi lo ↔ lo ≤ c ∧ c ≤ hi := by
  simp only [rangeDesc, List.mem_reverse, List.mem_range'_1]
  omega

theorem rangeDesc_pairwise (hi lo : Nat) :
    (rangeDesc hi lo).Pairwise (fun a b => b < a) := by
  rw [rangeDesc, List.pairwise_reverse]
  exact pairwise_lt_range'1 _ _

theorem rangeDesc_nodup (hi lo : Nat) : (rangeDesc hi lo).Nodup :=
  (rangeDesc_pairwise hi lo).imp (fun h => by omega)

/-! ### The descending sort -/

theorem insertDesc_perm (a : Nat) (l : List Nat) : List.Perm (insertDesc a l) (a :: l) := by
  induction l with
  | nil => simp [insertDesc]
  | cons b t ih =>
    by_cases h : b ≤ a
    · simp [insertDesc, h]
    · simp only [insertDesc, if_neg h]
      exact (ih.cons b).trans (List.Perm.swap a b t)

theorem sortDesc_perm (l : List Nat) : List.Perm (sortDesc l) l := by
  induction l with
  | nil => rfl
  | cons a t ih => exact (insertDesc_perm a (sortDesc t)).trans (ih.cons a)

theorem insertDesc_sorted {l : List Nat} (a : Nat)
    (h : l.Pairwise (fun x y => y ≤ x)) :
    (insertDesc a l).Pairwise (fun x y => y ≤ x) := by
  induction l with
  | nil => simp [insertDesc]
  | cons b t ih =>
    rcases List.pairwise_cons.mp h with ⟨hb, ht⟩
    by_cases hba : b ≤ a
    · simp only [insertDesc, if_pos hba]
      refine List.Pairwise.cons ?_ h
      intro x hx
      rcases List.mem_cons.mp hx with rfl | hx
      · exact hba
      · exact le_trans (hb x hx) hba
    · simp only [insertDesc, if_neg hba]
      refine List.Pairwise.cons ?_ (ih ht)
      intro x hx
      have := (insertDesc_perm a t).mem_iff.mp hx
      rcases List.mem_cons.mp this with rfl | hx2
      · omega
      · exact hb x hx2

theorem sortDesc_sorted (l : List Nat) :
    (sortDesc l).Pairwise (fun x y => y ≤ x) := by
  induction l with
  | nil => simp [sortDesc]
  | cons a t ih => exact insertDesc_sorted a ih

/-- In a descending-sorted duplicate-free list whose minimum is `m`,
dropping the last element is the same as filtering `m` out. -/
theorem sorted_nodup_dropLast_eq_filter :
    ∀ (S : List Nat) (m : Nat), S.Pairwise (fun x y => y ≤ x) → S.Nodup →
      m ∈ S → (∀ x ∈ S, m ≤ x) → S.dropLast = S.filter (fun x => x ≠ m)
  | [], m, _, _, hm, _ => absurd hm (by simp)
  | [a], m, _, _, hm, _ => by
    simp at hm
    subst hm
    simp
  | a :: b :: t, m, hs, hnd, hm, hmin => by
    rcases List.pairwise_cons.mp hs with ⟨hb, ht⟩
    rcases List.nodup_cons.mp hnd with ⟨hna, hndt⟩
    have ham : a ≠ m := by
      rintro rfl
      have h1 : b ≤ a := hb b (by simp)
      have h2 : a ≤ b := hmin b (by simp)
      exact hna (by simp [Nat.le_antisymm h2 h1])
    have hmt : m ∈ b :: t := by
      rcases List.mem_cons.mp hm with rfl | h
      · exact absurd rfl ham
      · exact h
    have ih := sorted_nodup_dropLast_eq_filter (b :: t) m ht hndt hmt
      (fun x hx => hmin x (List.mem_cons_of_mem a hx))
    simp only [List.dropLast_cons₂, List.filter_cons, ih]
    simp [ham]

/-! ### Reachability along a parent-to-child relation -/

theorem reachN_zero {E : Nat → Nat → Prop} {a b : Nat} : ReachN E 0 a b ↔ a = b := by
  constructor
  · intro h; cases h; rfl
  · rintro rfl; exact ReachN.refl a

theorem reachN_succ_iff {E : Nat → Nat → Prop} {k a c : Nat} :
    ReachN E (k + 1) a c ↔ ∃ b, E a b ∧ ReachN E k b c := by
  constructor
  · intro h; cases h with
    | step hab hbc => exact ⟨_, hab, hbc⟩
  · rintro ⟨b, hab, hbc⟩; exact ReachN.step hab hbc

theorem reachN_snoc {E : Nat → Nat → Prop} {k a p c : Nat}
    (h : ReachN E k a p) (hpc : E p c) : ReachN E (k + 1) a c := by
  induction h with
  | refl a => exact ReachN.step hpc (ReachN.refl c)
  | step hab _ ih => exact ReachN.step hab (ih hpc)

theorem reachN_tail_ex {E : Nat → Nat → Prop} :
    ∀ {k a c : Nat}, ReachN E (k + 1) a c → ∃ p, ReachN E k a p ∧ E p c := by
  intro k
  induction k with
  | zero =>
    intro a c h
    rcases reachN_succ_iff.mp h with ⟨b, hab, hbc⟩
    rw [reachN_zero] at hbc
    subst hbc
    exact ⟨a, ReachN.refl a, hab⟩
  | succ k ih =>
    intro a c h
    rcases reachN_succ_iff.mp h with ⟨b, hab, hbc⟩
    rcases ih hbc with ⟨p, h1, h2⟩
    exact ⟨p, ReachN.step hab h1, h2⟩

theorem Reaches.refl {E : Nat → Nat → Prop} (a : Nat) : Reaches E a a :=
  ⟨0, ReachN.refl a⟩

theorem Reaches.head {E : Nat → Nat → Prop} {a b c : Nat}
    (hab : E a b) (h : Reaches E b c) : Reaches E a c := by
  rcases h with ⟨k, hk⟩; exact ⟨k + 1, ReachN.step hab hk⟩

theorem reaches_snoc {E : Nat → Nat → Prop} {a p c : Nat}
    (h : Reaches E a p) (hpc : E p c) : Reaches E a c := by
  rcases h with ⟨k, hk⟩; exact ⟨k + 1, reachN_snoc hk hpc⟩

/-- Along a relation that strictly decreases a measure, a path of length `k`
decreases the measure by at least `k`. -/
theorem reachN_mu {E : Nat → Nat → Prop} {μ : Nat → Nat}
    (Hdec : ∀ p x, E p x → μ x < μ p) {k a b : Nat}
    (h : ReachN E k a b) : μ b + k ≤ μ a := by
  induction h with
  | refl a => omega
  | step hab _ ih => have := Hdec _ _ hab; omega

/-- With unique parents and a strictly decreasing measure, the length of a
path between two fixed nodes is unique. -/
theorem reachN_len_unique {E : Nat → Nat → Prop} {μ : Nat → Nat} {s : Nat}
    (Hup : ∀ p q x, E p x → E q x → p = q)
    (Hdec : ∀ p x, E p x → μ x < μ p) :
    ∀ (j : Nat) {k x : Nat}, ReachN E j s x → ReachN E k s x → j = k := by
  intro j
  induction j with
  | zero =>
    intro k x h1 h2
    rw [reachN_zero] at h1
    subst h1
    cases k with
    | zero => rfl
    | succ k =>
      rcases reachN_tail_ex h2 with ⟨p, hp, hps⟩
      have h3 := reachN_mu Hdec hp
      have h4 := Hdec _ _ hps
      omega
  | succ j ih =>
    intro k x h1 h2
    cases k with
    | zero =>
      rw [reachN_zero] at h2
      subst h2
      rcases reachN_tail_ex h1 with ⟨p, hp, hps⟩
      have h3 := reachN_mu Hdec hp
      have h4 := Hdec _ _ hps
      omega
    | succ k =>
      rcases reachN_tail_ex h1 with ⟨p, hp, hpx⟩
      rcases reachN_tail_ex h2 with ⟨q, hq, hqx⟩
      have := Hup _ _ _ hpx hqx
      subst this
      rw [ih hp hq]

/-- A path of length `k` yields `k` distinct intermediate parents, each with
an outgoing `E`-edge, ordered by strictly decreasing measure. -/
theorem reachN_chain {E : Nat → Nat → Prop} {μ : Nat → Nat}
    (Hdec : ∀ p x, E p x → μ x < μ p) {k a b : Nat} (h : ReachN E k a b) :
    ∃ P : List Nat, P.length = k ∧ P.Pairwise (fun u v => μ v < μ u) ∧
      (∀ u ∈ P, (∃ y, E u y) ∧ μ u ≤ μ a) := by
  induction h with
  | refl a => exact ⟨[], rfl, by simp, by simp⟩
  | step hab hbc ih =>
    rename_i a b c k
    rcases ih with ⟨P, hlen, hpw, hall⟩
    refine ⟨a :: P, by simp [hlen], ?_, ?_⟩
    · refine List.Pairwise.cons ?_ hpw
      intro u hu
      have h1 := (hall u hu).2
      have h2 := Hdec _ _ hab
      omega
    · intro u hu
      rcases List.mem_cons.mp hu with rfl | hu
      · exact ⟨⟨b, hab⟩, le_refl _⟩
      · have h1 := hall u hu
        have h2 := Hdec _ _ hab
        exact ⟨h1.1, by omega⟩

theorem length_le_of_nodup_subset {l m : List Nat} (h : l.Nodup)
    (hsub : ∀ x ∈ l, x ∈ m) : l.length ≤ m.length := by
  calc l.length = l.toFinset.card := (List.toFinset_card_of_nodup h).symm
    _ ≤ m.toFinset.card := Finset.card_le_card (by
        intro x hx
        rw [List.mem_toFinset] at hx ⊢
        exact hsub x hx)
    _ ≤ m.length := List.toFinset_card_le m

/-- Bound the length of any path by the number of possible parents. -/
theorem reachN_le_parents {E : Nat → Nat → Prop} {μ : Nat → Nat}
    {parents : List Nat}
    (Hdec : ∀ p x, E p x → μ x < μ p)
    (Hpar : ∀ p x, E p x → p ∈ parents) {k a b : Nat}
    (h : ReachN E k a b) : k ≤ parents.length := by
  rcases reachN_chain Hdec h with ⟨P, hlen, hpw, hall⟩
  have hnd : P.Nodup := hpw.imp (fun h hEq => by subst hEq; omega)
  have hsub : ∀ u ∈ P, u ∈ parents := by
    intro u hu
    rcases (hall u hu).1 with ⟨y, hy⟩
    exact Hpar _ _ hy
  rw [← hlen]
  exact length_le_of_nodup_subset hnd hsub

/-! ### Generic facts about the BFS loop -/

theorem step_nil_of {E : Nat → Nat → Prop} {step : List Nat → List Nat}
    (Hstep : ∀ F x, x ∈ step F ↔ ∃ p ∈ F, E p x) : step [] = [] := by
  refine List.eq_nil_iff_forall_not_mem.mpr (fun x hx => ?_)
  rcases (Hstep [] x).mp hx with ⟨p, hp, _⟩
  simp at hp

theorem levels_nil {E : Nat → Nat → Prop} {step : List Nat → List Nat}
    (Hstep : ∀ F x, x ∈ step F ↔ ∃ p ∈ F, E p x) :
    ∀ k, levels step k [] = [] := by
  intro k
  induction k with
  | zero => rfl
  | succ k ih => rw [levels, step_nil_of Hstep, ih]

theorem levels_mem {E : Nat → Nat → Prop} {step : List Nat → List Nat}
    (Hstep : ∀ F x, x ∈ step F ↔ ∃ p ∈ F, E p x) :
    ∀ (k : Nat) (F : List Nat) (x : Nat),
      x ∈ levels step k F ↔ ∃ p ∈ F, ReachN E k p x := by
  intro k
  induction k with
  | zero =>
    intro F x
    simp [levels, reachN_zero]
  | succ k ih =>
    intro F x
    rw [levels, ih (step F) x]
    constructor
    · rintro ⟨q, hq, hqx⟩
      rcases (Hstep F q).mp hq with ⟨p, hp, hpq⟩
      exact ⟨p, hp, ReachN.step hpq hqx⟩
    · rintro ⟨p, hp, hpx⟩
      rcases reachN_succ_iff.mp hpx with ⟨q, hpq, hqx⟩
      exact ⟨q, (Hstep F q).mpr ⟨p, hp, hpq⟩, hqx⟩

theorem levels_nodup {step : List Nat → List Nat}
    (Hnd : ∀ G, G.Nodup → (step G).Nodup) :
    ∀ (k : Nat) (F : List Nat), F.Nodup → (levels step k F).Nodup := by
  intro k
  induction k with
  | zero => intro F hF; exact hF
  | succ k ih => intro F hF; exact ih (step F) (Hnd F hF)

/-- With enough fuel and an eventually empty frontier, the BFS loop returns
the concatenation of its frontiers. -/
theorem bfsAux_eq_flatten {E : Nat → Nat → Prop} {step : List Nat → List Nat}
    (Hstep : ∀ F x, x ∈ step F ↔ ∃ p ∈ F, E p x) :
    ∀ (K fuel : Nat) (F : List Nat), levels step K F = [] → K < fuel →
      bfsAux step fuel F = ((List.range K).map (fun k => levels step k F)).flatten := by
  intro K
  induction K with
  | zero =>
    intro fuel F hK _
    have hF : F = [] := hK
    subst hF
    cases fuel with
    | zero => simp [bfsAux]
    | succ fuel => simp [bfsAux]
  | succ K ih =>
    intro fuel F hK hfuel
    cases fuel with
    | zero => omega
    | succ fuel =>
      by_cases hF : F = []
      · subst hF
        rw [bfsAux]
        simp only [List.isEmpty_nil, if_true]
        have hLN : ∀ k, levels step k ([] : List Nat) = [] := levels_nil Hstep
        refine Eq.symm (List.eq_nil_iff_forall_not_mem.mpr ?_)
        intro x hx
        rw [List.mem_flatten] at hx
        rcases hx with ⟨l, hl, hxl⟩
        rw [List.mem_map] at hl
        rcases hl with ⟨k, _, rfl⟩
        rw [hLN k] at hxl
        simp at hxl
      · rw [bfsAux]
        rw [if_neg (by simpa using hF)]
        have hK2 : levels step K (step F) = [] := hK
        rw [ih fuel (step F) hK2 (by omega)]
        rw [List.range_succ_eq_map]
        simp only [List.map_cons, List.map_map, List.flatten_cons]
        rfl

/-- Membership in the BFS result, under the same conditions. -/
theorem bfsAux_mem {E : Nat → Nat → Prop} {step : List Nat → List Nat}
    (Hstep : ∀ F x, x ∈ step F ↔ ∃ p ∈ F, E p x)
    {K fuel : Nat} {F : List Nat} (hK : levels step K F = []) (hfuel : K < fuel)
    {x : Nat} :
    x ∈ bfsAux step fuel F ↔ ∃ k, k < K ∧ x ∈ levels step k F := by
  rw [bfsAux_eq_flatten Hstep K fuel F hK hfuel]
  simp only [List.mem_flatten, List.mem_map, List.mem_range]
  constructor
  · rintro ⟨l, ⟨k, hk, rfl⟩, hx⟩
    exact ⟨k, hk, hx⟩
  · rintro ⟨k, hk, hx⟩
    exact ⟨_, ⟨k, hk, rfl⟩, hx⟩

/-! ### The condensed-tree-encoding instance of the BFS theory -/

theorem le_foldr_max {l : List Nat} {x : Nat} (h : x ∈ l) : x ≤ l.foldr max 0 := by
  induction l with
  | nil => simp at h
  | cons a t ih =>
    rcases List.mem_cons.mp h with rfl | h
    · exact le_max_left _ _
    · exact le_trans (ih h) (le_max_right _ _)

theorem child_le_maxChild {tree : CTree} {e : CondensedTreeEdge} (h : e ∈ tree) :
    e.child ≤ maxChild tree :=
  le_foldr_max (List.mem_map_of_mem _ h)

theorem edgeRel_mu {tree : CTree} {mu : Nat → Nat}
    (H : ∀ e ∈ tree, mu e.child < mu e.parent) :
    ∀ p x, edgeRel tree p x → mu x < mu p := by
  rintro p x ⟨e, he, rfl, rfl⟩
  exact H e he

/-- When ids increase from parent to child (true of the pruned cluster tree),
`muC` is a strictly decreasing measure. -/
theorem lt_measure {tree : CTree} (Hlt : ∀ e ∈ tree, e.parent < e.child) :
    ∀ e ∈ tree, muC tree e.child < muC tree e.parent := by
  intro e he
  have h1 := Hlt e he
  have h2 := child_le_maxChild he
  simp only [muC]
  omega

theorem edgeRel_parents {tree : CTree} :
    ∀ p x, edgeRel tree p x → p ∈ tree.map (fun e => e.parent) := by
  rintro p x ⟨e, he, rfl, _⟩
  exact List.mem_map_of_mem _ he

theorem edgeRel_child_mem {tree : CTree} {p x : Nat} (h : edgeRel tree p x) :
    x ∈ tree.map (fun e => e.child) := by
  rcases h with ⟨e, he, _, rfl⟩
  exact List.mem_map_of_mem _ he

theorem cluster_reachN_le {tree : CTree} {mu : Nat → Nat}
    (H : ∀ e ∈ tree, mu e.child < mu e.parent)
    {k a b : Nat} (h : ReachN (edgeRel tree) k a b) : k ≤ tree.length := by
  have := reachN_le_parents (edgeRel_mu H) (fun p x => edgeRel_parents p x) h
  simpa using this

theorem clusterStep_mem (tree : CTree) :
    ∀ (F : List Nat) (x : Nat), x ∈ clusterStep tree F ↔ ∃ p ∈ F, edgeRel tree p x := by
  intro F x
  simp only [clusterStep, List.mem_map, List.mem_filter, edgeRel]
  constructor
  · rintro ⟨e, ⟨he, hc⟩, rfl⟩
    exact ⟨e.parent, by simpa using hc, e, he, rfl, rfl⟩
  · rintro ⟨p, hp, e, he, rfl, rfl⟩
    exact ⟨e, ⟨he, by simpa using hp⟩, rfl⟩

theorem clusterStep_nodup {tree : CTree}
    (Hnd : (tree.map (fun e => e.child)).Nodup) (F : List Nat) :
    (clusterStep tree F).Nodup := by
  show ((tree.filter (fun e => F.contains e.parent)).map (fun e => e.child)).Nodup
  exact ((List.filter_sublist tree).map (fun e => e.child)).nodup Hnd

theorem edgeRel_unique {tree : CTree}
    (Hnd : (tree.map (fun e => e.child)).Nodup) :
    ∀ p q x, edgeRel tree p x → edgeRel tree q x → p = q := by
  rintro p q x ⟨e1, h1, rfl, hc1⟩ ⟨e2, h2, rfl, hc2⟩
  have he : e1 = e2 :=
    List.inj_on_of_nodup_map Hnd h1 h2 (hc1.trans hc2.symm)
  rw [he]

theorem cluster_levels_empty {tree : CTree} {mu : Nat → Nat}
    (H : ∀ e ∈ tree, mu e.child < mu e.parent)
    (s : Nat) : levels (clusterStep tree) (tree.length + 1) [s] = [] := by
  refine List.eq_nil_iff_forall_not_mem.mpr (fun y hy => ?_)
  rw [levels_mem (clusterStep_mem tree)] at hy
  rcases hy with ⟨p, hp, hr⟩
  rw [List.mem_singleton] at hp
  subst hp
  exact absurd (cluster_reachN_le H hr) (by omega)

/-- BFS membership on a condensed tree: exactly the reachable nodes. -/
theorem bfs_cluster_mem {tree : CTree} {mu : Nat → Nat}
    (H : ∀ e ∈ tree, mu e.child < mu e.parent)
    (s x : Nat) :
    x ∈ bfs_from_cluster_tree tree s ↔ Reaches (edgeRel tree) s x := by
  rw [bfs_from_cluster_tree,
    bfsAux_mem (clusterStep_mem tree) (cluster_levels_empty H s) (by omega)]
  constructor
  · rintro ⟨k, _, hk⟩
    rw [levels_mem (clusterStep_mem tree)] at hk
    rcases hk with ⟨p, hp, hr⟩
    rw [List.mem_singleton] at hp
    subst hp
    exact ⟨k, hr⟩
  · rintro ⟨k, hk⟩
    have hb := cluster_reachN_le H hk
    exact ⟨k, by omega,
      (levels_mem (clusterStep_mem tree) k [s] x).mpr ⟨s, by simp, hk⟩⟩

/-- BFS on a condensed tree never repeats a node. -/
theorem bfs_cluster_nodup {tree : CTree} {mu : Nat → Nat}
    (H : ∀ e ∈ tree, mu e.child < mu e.parent)
    (Hnd : (tree.map (fun e => e.child)).Nodup) (s : Nat) :
    (bfs_from_cluster_tree tree s).Nodup := by
  rw [bfs_from_cluster_tree,
    bfsAux_eq_flatten (clusterStep_mem tree) (tree.length + 1) (tree.length + 2) [s]
      (cluster_levels_empty H s) (by omega), ← List.flatMap_def]
  rw [List.nodup_flatMap]
  constructor
  · intro k _
    exact levels_nodup (fun G _ => clusterStep_nodup Hnd G) k [s] (by simp)
  · have hpw : (List.range (tree.length + 1)).Pairwise (· < ·) := List.pairwise_lt_range _
    refine hpw.imp ?_
    intro j k hjk
    intro x hxj hxk
    rw [levels_mem (clusterStep_mem tree)] at hxj hxk
    rcases hxj with ⟨p, hp, hrj⟩
    rw [List.mem_singleton] at hp
    subst hp
    rcases hxk with ⟨q, hq, hrk⟩
    rw [List.mem_singleton] at hq
    subst hq
    have := reachN_len_unique (edgeRel_unique Hnd) (edgeRel_mu H) j hrj hrk
    omega

/-- When every edge hangs below the start node, BFS lists every forest node
exactly once. -/
theorem bfs_cluster_length {tree : CTree} {mu : Nat → Nat} {s : Nat}
    (H : ∀ e ∈ tree, mu e.child < mu e.parent)
    (Hnd : (tree.map (fun e => e.child)).Nodup) (Hne : tree ≠ [])
    (Hconn : ∀ e ∈ tree, Reaches (edgeRel tree) s e.parent) :
    (bfs_from_cluster_tree tree s).length = (forestNodes tree).card := by
  have hnd := bfs_cluster_nodup H Hnd s
  have hs_par : s ∈ tree.map (fun e => e.parent) := by
    rcases List.exists_mem_of_ne_nil tree Hne with ⟨e, he⟩
    rcases Hconn e he with ⟨k, hk⟩
    cases k with
    | zero =>
      rw [reachN_zero] at hk
      subst hk
      exact List.mem_map_of_mem _ he
    | succ k =>
      rcases reachN_succ_iff.mp hk with ⟨b, hsb, _⟩
      exact edgeRel_parents s b hsb
  have hset : (bfs_from_cluster_tree tree s).toFinset = forestNodes tree := by
    ext x
    rw [List.mem_toFinset, bfs_cluster_mem H s x]
    simp only [forestNodes, Finset.mem_union, List.mem_toFinset]
    constructor
    · rintro ⟨k, hk⟩
      cases k with
      | zero =>
        rw [reachN_zero] at hk
        subst hk
        exact Or.inl hs_par
      | succ k =>
        rcases reachN_tail_ex hk with ⟨p, _, hpx⟩
        exact Or.inr (edgeRel_child_mem hpx)
    · rintro (hx | hx)
      · rcases List.mem_map.mp hx with ⟨e, he, rfl⟩
        exact Hconn e he
      · rcases List.mem_map.mp hx with ⟨e, he, rfl⟩
        exact reaches_snoc (Hconn e he) ⟨e, he, rfl, rfl⟩
  rw [← hset]
  exact (List.toFinset_card_of_nodup hnd).symm

/-! ### The linkage-encoding instance of the BFS theory -/

theorem linkageStep_mem (hierarchy : List SingleLinkageRow) :
    ∀ (F : List Nat) (x : Nat),
      x ∈ linkageStep hierarchy (hierarchy.length + 1) F ↔
        ∃ p ∈ F, linkRel hierarchy p x := by
  intro F x
  simp only [linkageStep, List.mem_flatMap, List.mem_filterMap, linkRel]
  constructor
  · rintro ⟨i, ⟨p, hp, hfp⟩, hx⟩
    by_cases hnp : hierarchy.length + 1 ≤ p
    · rw [if_pos hnp] at hfp
      have hip : p - (hierarchy.length + 1) = i := Option.some.inj hfp
      cases hr : hierarchy[i]? with
      | none => simp [rowChildren, hr] at hx
      | some r =>
        simp only [rowChildren, hr, List.mem_cons, List.not_mem_nil, or_false] at hx
        exact ⟨p, hp, i, r, hr, by omega, hx⟩
    · rw [if_neg hnp] at hfp; cases hfp
  · rintro ⟨p, hp, i, r, hr, rfl, hx⟩
    refine ⟨i, ⟨hierarchy.length + 1 + i, hp, ?_⟩, ?_⟩
    · rw [if_pos (by omega)]
      congr 1
      omega
    · simp only [rowChildren, hr, List.mem_cons, List.not_mem_nil, or_false]
      exact hx

theorem linkRel_mu {hierarchy : List SingleLinkageRow}
    (Hval : ∀ (i : Nat) (r : SingleLinkageRow), hierarchy[i]? = some r →
      r.left < hierarchy.length + 1 + i ∧ r.right < hierarchy.length + 1 + i) :
    ∀ p x, linkRel hierarchy p x → x < p := by
  rintro p x ⟨i, r, hr, rfl, hx⟩
  have := Hval i r hr
  rcases hx with rfl | rfl <;> omega

theorem linkRel_parents {hierarchy : List SingleLinkageRow} :
    ∀ p x, linkRel hierarchy p x →
      p ∈ (List.range hierarchy.length).map (fun i => hierarchy.length + 1 + i) := by
  rintro p x ⟨i, r, hr, rfl, _⟩
  have hi : i < hierarchy.length := by
    rcases List.getElem?_eq_some_iff.mp hr with ⟨h, _⟩
    exact h
  exact List.mem_map.mpr ⟨i, List.mem_range.mpr hi, rfl⟩

theorem link_reachN_le {hierarchy : List SingleLinkageRow}
    (Hval : ∀ (i : Nat) (r : SingleLinkageRow), hierarchy[i]? = some r →
      r.left < hierarchy.length + 1 + i ∧ r.right < hierarchy.length + 1 + i)
    {k a b : Nat} (h : ReachN (linkRel hierarchy) k a b) : k ≤ hierarchy.length := by
  have := @reachN_le_parents _ (fun n => n) _ (linkRel_mu Hval)
    (fun p x => linkRel_parents p x) _ _ _ h
  simpa using this

theorem linkRow_ne {hierarchy : List SingleLinkageRow}
    (Hnd : (linkChildren hierarchy).Nodup) {i : Nat} {r : SingleLinkageRow}
    (hi : hierarchy[i]? = some r) : r.left ≠ r.right := by
  rw [linkChildren, List.nodup_flatMap] at Hnd
  rcases List.getElem?_eq_some_iff.mp hi with ⟨hlen, rfl⟩
  have := Hnd.1 _ (List.getElem_mem hlen)
  simpa using this

theorem linkChildren_disjoint {hierarchy : List SingleLinkageRow}
    (Hnd : (linkChildren hierarchy).Nodup) {i j : Nat} (hij : i ≠ j)
    {ri rj : SingleLinkageRow}
    (hi : hierarchy[i]? = some ri) (hj : hierarchy[j]? = some rj) :
    ∀ x, (x = ri.left ∨ x = ri.right) → (x = rj.left ∨ x = rj.right) → False := by
  rw [linkChildren, List.nodup_flatMap] at Hnd
  rcases List.getElem?_eq_some_iff.mp hi with ⟨hleni, hgi⟩
  rcases List.getElem?_eq_some_iff.mp hj with ⟨hlenj, hgj⟩
  have hpw := List.pairwise_iff_getElem.mp Hnd.2
  intro x hxi hxj
  rcases Nat.lt_or_ge i j with hlt | hge
  · have hdis := hpw i j hleni hlenj hlt
    exact hdis (by rw [hgi]; simpa using hxi) (by rw [hgj]; simpa using hxj)
  · have hlt2 : j < i := by omega
    have hdis := hpw j i hlenj hleni hlt2
    exact hdis (by rw [hgj]; simpa using hxj) (by rw [hgi]; simpa using hxi)

theorem linkRel_unique {hierarchy : List SingleLinkageRow}
    (Hnd : (linkChildren hierarchy).Nodup) :
    ∀ p q x, linkRel hierarchy p x → linkRel hierarchy q x → p = q := by
  rintro p q x ⟨i, ri, hi, rfl, hxi⟩ ⟨j, rj, hj, rfl, hxj⟩
  by_cases hij : i = j
  · rw [hij]
  · exact absurd (linkChildren_disjoint Hnd hij hi hj x hxi hxj) (fun h => h)

theorem linkageStep_nodup {hierarchy : List SingleLinkageRow}
    (Hnd : (linkChildren hierarchy).Nodup) (num_points : Nat) (F : List Nat)
    (hF : F.Nodup) : (linkageStep hierarchy num_points F).Nodup := by
  rw [linkageStep, List.nodup_flatMap]
  have hint : (F.filterMap
      (fun x => if num_points ≤ x then some (x - num_points) else none)).Nodup := by
    refine List.Nodup.filterMap ?_ hF
    intro a b c hca hcb
    simp only [Option.mem_def] at hca hcb
    by_cases ha : num_points ≤ a
    · rw [if_pos ha] at hca
      by_cases hb : num_points ≤ b
      · rw [if_pos hb] at hcb
        have h1 := Option.some.inj hca
        have h2 := Option.some.inj hcb
        omega
      · rw [if_neg hb] at hcb; cases hcb
    · rw [if_neg ha] at hca; cases hca
  refine ⟨?_, ?_⟩
  · intro i _
    cases hr : hierarchy[i]? with
    | none => simp [rowChildren, hr]
    | some r => simpa [rowChildren, hr] using linkRow_ne Hnd hr
  · refine hint.imp_of_mem ?_
    intro i j hi hj hij
    intro x hxi hxj
    cases hri : hierarchy[i]? with
    | none => simp [rowChildren, hri] at hxi
    | some ri =>
      cases hrj : hierarchy[j]? with
      | none => simp [rowChildren, hrj] at hxj
      | some rj =>
        simp only [rowChildren, hri, List.mem_cons, List.not_mem_nil, or_false] at hxi
        simp only [rowChildren, hrj, List.mem_cons, List.not_mem_nil, or_false] at hxj
        exact linkChildren_disjoint Hnd hij hri hrj x hxi hxj

theorem num_points_eq (L : Nat) : 2 * L - L + 1 = L + 1 := by omega

theorem bfs_from_linkage_tree_eq (hierarchy : List SingleLinkageRow) (s : Nat) :
    bfs_from_linkage_tree hierarchy s =
      bfsAux (linkageStep hierarchy (hierarchy.length + 1))
        (hierarchy.length + 2) [s] := by
  rw [bfs_from_linkage_tree]
  rw [num_points_eq]

theorem link_levels_empty {hierarchy : List SingleLinkageRow}
    (Hval : ∀ (i : Nat) (r : SingleLinkageRow), hierarchy[i]? = some r →
      r.left < hierarchy.length + 1 + i ∧ r.right < hierarchy.length + 1 + i)
    (s : Nat) :
    levels (linkageStep hierarchy (hierarchy.length + 1))
      (hierarchy.length + 1) [s] = [] := by
  refine List.eq_nil_iff_forall_not_mem.mpr (fun y hy => ?_)
  rw [levels_mem (linkageStep_mem hierarchy)] at hy
  rcases hy with ⟨p, hp, hr⟩
  rw [List.mem_singleton] at hp
  subst hp
  exact absurd (link_reachN_le Hval hr) (by omega)

/-- BFS membership on a linkage: exactly the reachable nodes. -/
theorem bfs_linkage_mem {hierarchy : List SingleLinkageRow}
    (Hval : ∀ (i : Nat) (r : SingleLinkageRow), hierarchy[i]? = some r →
      r.left < hierarchy.length + 1 + i ∧ r.right < hierarchy.length + 1 + i)
    (s x : Nat) :
    x ∈ bfs_from_linkage_tree hierarchy s ↔ Reaches (linkRel hierarchy) s x := by
  rw [bfs_from_linkage_tree_eq,
    bfsAux_mem (linkageStep_mem hierarchy) (link_levels_empty Hval s) (by omega)]
  constructor
  · rintro ⟨k, _, hk⟩
    rw [levels_mem (linkageStep_mem hierarchy)] at hk
    rcases hk with ⟨p, hp, hr⟩
    rw [List.mem_singleton] at hp
    subst hp
    exact ⟨k, hr⟩
  · rintro ⟨k, hk⟩
    have hb := link_reachN_le Hval hk
    exact ⟨k, by omega,
      (levels_mem (linkageStep_mem hierarchy) k [s] x).mpr ⟨s, by simp, hk⟩⟩

/-- BFS on a linkage never repeats a node. -/
theorem bfs_linkage_nodup {hierarchy : List SingleLinkageRow}
    (Hval : ∀ (i : Nat) (r : SingleLinkageRow), hierarchy[i]? = some r →
      r.left < hierarchy.length + 1 + i ∧ r.right < hierarchy.length + 1 + i)
    (Hnd : (linkChildren hierarchy).Nodup) (s : Nat) :
    (bfs_from_linkage_tree hierarchy s).Nodup := by
  rw [bfs_from_linkage_tree_eq,
    bfsAux_eq_flatten (linkageStep_mem hierarchy) (hierarchy.length + 1)
      (hierarchy.length + 2) [s] (link_levels_empty Hval s) (by omega),
    ← List.flatMap_def, List.nodup_flatMap]
  constructor
  · intro k _
    exact levels_nodup (fun G hG => linkageStep_nodup Hnd _ G hG) k [s] (by simp)
  · refine (List.pairwise_lt_range _).imp ?_
    intro j k hjk
    intro x hxj hxk
    rw [levels_mem (linkageStep_mem hierarchy)] at hxj hxk
    rcases hxj with ⟨p, hp, hrj⟩
    rw [List.mem_singleton] at hp
    subst hp
    rcases hxk with ⟨q, hq, hrk⟩
    rw [List.mem_singleton] at hq
    subst hq
    have := @reachN_len_unique _ (fun n => n) _ (linkRel_unique Hnd)
      (linkRel_mu Hval) j _ _ hrj hrk
    omega

/-- From the final merge node, every node of a covering linkage is reachable. -/
theorem link_reaches_all {hierarchy : List SingleLinkageRow}
    (Hval : ∀ (i : Nat) (r : SingleLinkageRow), hierarchy[i]? = some r →
      r.left < hierarchy.length + 1 + i ∧ r.right < hierarchy.length + 1 + i)
    (Hcov : ∀ x, x < 2 * hierarchy.length →
      ∃ (i : Nat) (r : SingleLinkageRow), hierarchy[i]? = some r ∧
        (x = r.left ∨ x = r.right)) :
    ∀ x, x ≤ 2 * hierarchy.length →
      Reaches (linkRel hierarchy) (2 * hierarchy.length) x := by
  have key : ∀ (d x : Nat), x ≤ 2 * hierarchy.length →
      2 * hierarchy.length - x ≤ d →
      Reaches (linkRel hierarchy) (2 * hierarchy.length) x := by
    intro d
    induction d with
    | zero =>
      intro x hx hd
      have : x = 2 * hierarchy.length := by omega
      subst this
      exact Reaches.refl _
    | succ d ih =>
      intro x hx hd
      by_cases hxe : x = 2 * hierarchy.length
      · subst hxe; exact Reaches.refl _
      · rcases Hcov x (by omega) with ⟨i, r, hr, hside⟩
        have hi : i < hierarchy.length := by
          rcases List.getElem?_eq_some_iff.mp hr with ⟨h, _⟩
          exact h
        have hrel : linkRel hierarchy (hierarchy.length + 1 + i) x :=
          ⟨i, r, hr, rfl, hside⟩
        have hgt : x < hierarchy.length + 1 + i := by
          have := Hval i r hr
          rcases hside with rfl | rfl <;> omega
        have hple : hierarchy.length + 1 + i ≤ 2 * hierarchy.length := by omega
        exact reaches_snoc (ih (hierarchy.length + 1 + i) hple (by omega)) hrel
  intro x hx
  exact key (2 * hierarchy.length) x hx (by omega)

/-- From the final merge node of a well-formed linkage, BFS lists all
`2*dim + 1` forest nodes exactly once. -/
theorem bfs_linkage_length {hierarchy : List SingleLinkageRow}
    (Hval : ∀ (i : Nat) (r : SingleLinkageRow), hierarchy[i]? = some r →
      r.left < hierarchy.length + 1 + i ∧ r.right < hierarchy.length + 1 + i)
    (Hnd : (linkChildren hierarchy).Nodup)
    (Hcov : ∀ x, x < 2 * hierarchy.length →
      ∃ (i : Nat) (r : SingleLinkageRow), hierarchy[i]? = some r ∧
        (x = r.left ∨ x = r.right)) :
    (bfs_from_linkage_tree hierarchy (2 * hierarchy.length)).length =
      2 * hierarchy.length + 1 := by
  have hnd := bfs_linkage_nodup Hval Hnd (2 * hierarchy.length)
  have hset : (bfs_from_linkage_tree hierarchy (2 * hierarchy.length)).toFinset =
      Finset.range (2 * hierarchy.length + 1) := by
    ext x
    rw [List.mem_toFinset, bfs_linkage_mem Hval, Finset.mem_range]
    constructor
    · rintro ⟨k, hk⟩
      have h2 := @reachN_mu _ (fun n => n) (linkRel_mu Hval) _ _ _ hk
      simp only at h2
      omega
    · intro hx
      exact link_reaches_all Hval Hcov x (by omega)
  have := List.toFinset_card_of_nodup hnd
  rw [hset, Finset.card_range] at this
  omega

/-! ### The leaf DFS -/

theorem children_mem (ct : CTree) (n c : Nat) :
    c ∈ (ct.filter (fun e => e.parent = n)).map (fun e => e.child) ↔
      edgeRel ct n c := by
  simp only [List.mem_map, List.mem_filter, edgeRel, decide_eq_true_eq]
  constructor
  · rintro ⟨e, ⟨he, hp⟩, rfl⟩
    exact ⟨e, he, hp, rfl⟩
  · rintro ⟨e, he, hp, rfl⟩
    exact ⟨e, ⟨he, hp⟩, rfl⟩

/-- Two distinct ancestors of a node are comparable (with unique parents). -/
theorem reaches_comparable {E : Nat → Nat → Prop}
    (Hup : ∀ p q x, E p x → E q x → p = q) :
    ∀ (j : Nat) {k a b x : Nat}, ReachN E j a x → ReachN E k b x →
      Reaches E a b ∨ Reaches E b a := by
  intro j
  induction j with
  | zero =>
    intro k a b x h1 h2
    rw [reachN_zero] at h1
    subst h1
    exact Or.inr ⟨k, h2⟩
  | succ j ih =>
    intro k a b x h1 h2
    cases k with
    | zero =>
      rw [reachN_zero] at h2
      subst h2
      exact Or.inl ⟨j + 1, h1⟩
    | succ k =>
      rcases reachN_tail_ex h1 with ⟨p, hp, hpx⟩
      rcases reachN_tail_ex h2 with ⟨q, hq, hqx⟩
      have hpq := Hup _ _ _ hpx hqx
      subst hpq
      exact ih hp hq

/-- A sibling cannot reach its sibling (unique parents, increasing ids). -/
theorem sibling_not_reach {ct : CTree} {mu : Nat → Nat}
    (H : ∀ e ∈ ct, mu e.child < mu e.parent)
    (Hnd : (ct.map (fun e => e.child)).Nodup)
    {n c1 c2 : Nat} (h1 : edgeRel ct n c1) (h2 : edgeRel ct n c2)
    (hne : c1 ≠ c2) : ¬ Reaches (edgeRel ct) c1 c2 := by
  rintro ⟨k, hk⟩
  cases k with
  | zero =>
    rw [reachN_zero] at hk
    exact hne hk
  | succ k =>
    rcases reachN_tail_ex hk with ⟨p, hp, hpc⟩
    have hpn : p = n := edgeRel_unique Hnd _ _ _ hpc h2
    subst hpn
    have hmono := reachN_mu (edgeRel_mu H) hp
    have hstep := edgeRel_mu H _ _ h1
    omega

/-- Membership in the leaf DFS: exactly the childless reachable nodes. -/
theorem dfs_mem {ct : CTree} :
    ∀ (fuel n : Nat), (∀ k y, ReachN (edgeRel ct) k n y → k < fuel) →
      ∀ x, x ∈ recurse_leaf_dfs ct fuel n ↔
        (Reaches (edgeRel ct) n x ∧ noClusterChildren ct x) := by
  intro fuel
  induction fuel with
  | zero =>
    intro n hb x
    exact absurd (hb 0 n (ReachN.refl n)) (by omega)
  | succ fuel ih =>
    intro n hb x
    have hstep : recurse_leaf_dfs ct (fuel + 1) n =
        (if ((ct.filter (fun e => e.parent = n)).map (fun e => e.child)).isEmpty
         then [n]
         else (((ct.filter (fun e => e.parent = n)).map (fun e => e.child)).map
            (recurse_leaf_dfs ct fuel)).flatten) := rfl
    rw [hstep]
    by_cases hC : ((ct.filter (fun e => e.parent = n)).map (fun e => e.child)).isEmpty
    · rw [if_pos hC]
      rw [List.isEmpty_iff] at hC
      have hchildless : noClusterChildren ct n := by
        intro e he hpn
        have : e.child ∈ (ct.filter (fun e => e.parent = n)).map (fun e => e.child) :=
          (children_mem ct n e.child).mpr ⟨e, he, hpn, rfl⟩
        rw [hC] at this
        simp at this
      constructor
      · intro hx
        rw [List.mem_singleton] at hx
        subst hx
        exact ⟨Reaches.refl _, hchildless⟩
      · rintro ⟨⟨k, hk⟩, _⟩
        cases k with
        | zero =>
          rw [reachN_zero] at hk
          subst hk
          simp
        | succ k =>
          rcases reachN_succ_iff.mp hk with ⟨c, hnc, _⟩
          rcases hnc with ⟨e, he, hp, _⟩
          exact absurd hp (hchildless e he)
    · rw [if_neg hC]
      rw [List.isEmpty_iff] at hC
      constructor
      · intro hx
        rw [List.mem_flatten] at hx
        rcases hx with ⟨l, hl, hxl⟩
        rw [List.mem_map] at hl
        rcases hl with ⟨c, hc, rfl⟩
        have hnc : edgeRel ct n c := (children_mem ct n c).mp hc
        have hbc : ∀ k y, ReachN (edgeRel ct) k c y → k < fuel := by
          intro k y hk
          have := hb (k + 1) y (ReachN.step hnc hk)
          omega
        rcases (ih c hbc x).mp hxl with ⟨hr, hcl⟩
        exact ⟨hr.head hnc, hcl⟩
      · rintro ⟨⟨k, hk⟩, hcl⟩
        cases k with
        | zero =>
          rw [reachN_zero] at hk
          subst hk
          rcases List.exists_mem_of_ne_nil _ hC with ⟨c, hc⟩
          rcases (children_mem ct _ c).mp hc with ⟨e, he, hp, _⟩
          exact absurd hp (hcl e he)
        | succ k =>
          rcases reachN_succ_iff.mp hk with ⟨c, hnc, hcx⟩
          have hc : c ∈ (ct.filter (fun e => e.parent = n)).map (fun e => e.child) :=
            (children_mem ct n c).mpr hnc
          have hbc : ∀ k y, ReachN (edgeRel ct) k c y → k < fuel := by
            intro k y hky
            have := hb (k + 1) y (ReachN.step hnc hky)
            omega
          rw [List.mem_flatten]
          exact ⟨recurse_leaf_dfs ct fuel c, List.mem_map_of_mem _ hc,
            (ih c hbc x).mpr ⟨⟨k, hcx⟩, hcl⟩⟩

/-- The leaf DFS never repeats a node. -/
theorem dfs_nodup {ct : CTree} {mu : Nat → Nat}
    (H : ∀ e ∈ ct, mu e.child < mu e.parent)
    (Hnd : (ct.map (fun e => e.child)).Nodup) :
    ∀ (fuel n : Nat), (∀ k y, ReachN (edgeRel ct) k n y → k < fuel) →
      (recurse_leaf_dfs ct fuel n).Nodup := by
  intro fuel
  induction fuel with
  | zero =>
    intro n hb
    exact absurd (hb 0 n (ReachN.refl n)) (by omega)
  | succ fuel ih =>
    intro n hb
    have hstep : recurse_leaf_dfs ct (fuel + 1) n =
        (if ((ct.filter (fun e => e.parent = n)).map (fun e => e.child)).isEmpty
         then [n]
         else (((ct.filter (fun e => e.parent = n)).map (fun e => e.child)).map
            (recurse_leaf_dfs ct fuel)).flatten) := rfl
    rw [hstep]
    by_cases hC : ((ct.filter (fun e => e.parent = n)).map (fun e => e.child)).isEmpty
    · rw [if_pos hC]
      simp
    · rw [if_neg hC]
      rw [← List.flatMap_def, List.nodup_flatMap]
      have hCnd : ((ct.filter (fun e => e.parent = n)).map (fun e => e.child)).Nodup := by
        show ((ct.filter (fun e => e.parent = n)).map (fun e => e.child)).Nodup
        exact ((List.filter_sublist ct).map (fun e => e.child)).nodup Hnd
      have hbc : ∀ c, edgeRel ct n c → ∀ k y, ReachN (edgeRel ct) k c y → k < fuel := by
        intro c hnc k y hk
        have := hb (k + 1) y (ReachN.step hnc hk)
        omega
      refine ⟨?_, ?_⟩
      · intro c hc
        exact ih c (hbc c ((children_mem ct n c).mp hc))
      · refine hCnd.imp_of_mem ?_
        intro c1 c2 hc1 hc2 hne
        intro x hx1 hx2
        have h1 := (children_mem ct n c1).mp hc1
        have h2 := (children_mem ct n c2).mp hc2
        rcases (dfs_mem fuel c1 (hbc c1 h1) x).mp hx1 with ⟨hr1, _⟩
        rcases (dfs_mem fuel c2 (hbc c2 h2) x).mp hx2 with ⟨hr2, _⟩
        rcases hr1 with ⟨j, hj⟩
        rcases hr2 with ⟨k, hk⟩
        rcases reaches_comparable (edgeRel_unique Hnd) j hj hk with hcc | hcc
        · exact sibling_not_reach H Hnd h1 h2 hne hcc
        · exact sibling_not_reach H Hnd h2 h1 (Ne.symm hne) hcc

/-! ### The coordinate-placement loop -/

theorem coordsLoop_append (tree : CTree) (L1 L2 : List Nat) (st : CoordState) :
    coordsLoop tree (L1 ++ L2) st =
      match coordsLoop tree L1 st with
      | none => none
      | some st2 => coordsLoop tree L2 st2 := by
  induction L1 generalizing st with
  | nil => simp [coordsLoop]
  | cons c rest ih =>
    rw [List.cons_append]
    cases h : coordStep tree st c with
    | none => simp [coordsLoop, h]
    | some st2 =>
      simp only [coordsLoop, h]
      exact ih st2

/-- Inversion of one placement step: either it is a no-op, or the node has
exactly two cluster-tree children and the maps are updated as in the code. -/
theorem coordStep_inv {tree : CTree} {st : CoordState} {c : Nat} {st2 : CoordState}
    (h : coordStep tree st c = some st2) :
    st2 = st ∨
    ∃ l r xl xr, tree.filter (fun e => e.parent = c ∧ 1 < e.child_size) = [l, r] ∧
      st.x l.child = some xl ∧ st.x r.child = some xr ∧
      st2.x = (fun m => if m = c then some ((xl + xr) / 2) else st.x m) ∧
      st2.y = (fun m => if m = r.child then some r.lambda_val
               else if m = l.child then some l.lambda_val else st.y m) := by
  unfold coordStep at h
  split at h
  case isTrue hlen =>
    split at h
    case h_1 l r heq =>
      cases hxl : st.x l.child with
      | none => rw [hxl] at h; simp at h
      | some xl =>
        cases hxr : st.x r.child with
        | none => rw [hxl, hxr] at h; simp at h
        | some xr =>
          rw [hxl, hxr] at h
          simp only [Option.some.injEq] at h
          subst h
          exact Or.inr ⟨l, r, xl, xr, heq, hxl, hxr, rfl, rfl⟩
    case h_2 => simp at h
  case isFalse hlen =>
    simp only [Option.some.injEq] at h
    exact Or.inl h.symm

theorem coordStep_x_stable {tree : CTree} {st : CoordState} {c : Nat}
    {st2 : CoordState} (h : coordStep tree st c = some st2) {n : Nat}
    (hn : n ≠ c) : st2.x n = st.x n := by
  rcases coordStep_inv h with rfl | ⟨l, r, xl, xr, _, _, _, hx, _⟩
  · rfl
  · rw [hx]
    simp [hn]

theorem coordStep_y_stable {tree : CTree} {st : CoordState} {c : Nat}
    {st2 : CoordState} (h : coordStep tree st c = some st2) {n : Nat}
    (hn : ∀ e ∈ tree, ¬ (e.parent = c ∧ e.child = n ∧ 1 < e.child_size)) :
    st2.y n = st.y n := by
  rcases coordStep_inv h with rfl | ⟨l, r, xl, xr, heq, _, _, _, hy⟩
  · rfl
  · have hl : l ∈ tree.filter (fun e => e.parent = c ∧ 1 < e.child_size) := by
      rw [heq]; simp
    have hr : r ∈ tree.filter (fun e => e.parent = c ∧ 1 < e.child_size) := by
      rw [heq]; simp
    rw [List.mem_filter] at hl hr
    have hl2 := of_decide_eq_true hl.2
    have hr2 := of_decide_eq_true hr.2
    have hnl : n ≠ l.child := fun hnl =>
      hn l hl.1 ⟨hl2.1, hnl.symm, hl2.2⟩
    have hnr : n ≠ r.child := fun hnr =>
      hn r hr.1 ⟨hr2.1, hnr.symm, hr2.2⟩
    rw [hy]
    simp [hnl, hnr]

theorem coordsLoop_x_stable {tree : CTree} {L : List Nat} {st st2 : CoordState}
    (h : coordsLoop tree L st = some st2) {n : Nat} (hn : n ∉ L) :
    st2.x n = st.x n := by
  induction L generalizing st with
  | nil =>
    simp only [coordsLoop, Option.some.injEq] at h
    rw [h]
  | cons c rest ih =>
    rw [List.mem_cons] at hn
    push_neg at hn
    cases hc : coordStep tree st c with
    | none => simp [coordsLoop, hc] at h
    | some stm =>
      simp only [coordsLoop, hc] at h
      rw [ih h hn.2, coordStep_x_stable hc hn.1]

theorem coordsLoop_y_stable {tree : CTree} {L : List Nat} {st st2 : CoordState}
    (h : coordsLoop tree L st = some st2) {n : Nat}
    (hn : ∀ m ∈ L, ∀ e ∈ tree, ¬ (e.parent = m ∧ e.child = n ∧ 1 < e.child_size)) :
    st2.y n = st.y n := by
  induction L generalizing st with
  | nil =>
    simp only [coordsLoop, Option.some.injEq] at h
    rw [h]
  | cons c rest ih =>
    cases hc : coordStep tree st c with
    | none => simp [coordsLoop, hc] at h
    | some stm =>
      simp only [coordsLoop, hc] at h
      rw [ih h (fun m hm => hn m (List.mem_cons_of_mem c hm)),
        coordStep_y_stable hc (hn c (List.mem_cons_self c rest))]

theorem coordStep_none_of_three {tree : CTree} {c : Nat}
    (h3 : 3 ≤ (tree.filter (fun e => e.parent = c ∧ 1 < e.child_size)).length) :
    ∀ st, coordStep tree st c = none := by
  intro st
  unfold coordStep
  rw [if_pos (by omega)]
  split
  case h_1 l r heq =>
    rw [heq] at h3
    simp at h3
  case h_2 => rfl

theorem coordsLoop_none_of_mem {tree : CTree} {L : List Nat} {c : Nat}
    (hc : c ∈ L) (hfail : ∀ st, coordStep tree st c = none) :
    ∀ st, coordsLoop tree L st = none := by
  induction L with
  | nil => simp at hc
  | cons a rest ih =>
    intro st
    rcases List.mem_cons.mp hc with rfl | hc2
    · simp [coordsLoop, hfail st]
    · cases h : coordStep tree st a with
      | none => simp [coordsLoop, h]
      | some st2 => simp only [coordsLoop, h]; exact ih hc2 st2

/-! ### The selection loop -/

theorem selectStep_snd_cases (ct : CTree) (st : (Nat → Rat) × (Nat → Bool))
    (node : Nat) :
    ((selectStep ct st node).2 = fun m => if m = node then false else st.2 m) ∨
    ((selectStep ct st node).2 = fun m =>
        if m ∈ bfs_from_cluster_tree ct node ∧ m ≠ node then false else st.2 m) := by
  unfold selectStep
  split
  · exact Or.inl rfl
  · exact Or.inr rfl

theorem selectStep_false_mono {ct : CTree} {st : (Nat → Rat) × (Nat → Bool)}
    (m : Nat) {n : Nat} (h : st.2 n = false) : (selectStep ct st m).2 n = false := by
  rcases selectStep_snd_cases ct st m with hc | hc <;> rw [hc]
  · show (if n = m then false else st.2 n) = false
    split
    · rfl
    · exact h
  · show (if n ∈ bfs_from_cluster_tree ct m ∧ n ≠ m then false else st.2 n) = false
    split
    · rfl
    · exact h

theorem foldl_selectStep_false {ct : CTree} (L : List Nat) :
    ∀ (st : (Nat → Rat) × (Nat → Bool)) {n : Nat}, st.2 n = false →
      (L.foldl (selectStep ct) st).2 n = false := by
  induction L with
  | nil => intro st n h; exact h
  | cons a rest ih => intro st n h; exact ih _ (selectStep_false_mono a h)

/-- If a node survives the whole selection loop, then at its own iteration it
took the keep-branch, so every strict BFS descendant ends up deselected. -/
theorem foldl_selected_descendants {ct : CTree} {L : List Nat}
    {st : (Nat → Rat) × (Nat → Bool)} {a : Nat} (ha : a ∈ L)
    (htrue : (L.foldl (selectStep ct) st).2 a = true) :
    ∀ d, d ∈ bfs_from_cluster_tree ct a → d ≠ a →
      (L.foldl (selectStep ct) st).2 d = false := by
  intro d hd hda
  rcases List.append_of_mem ha with ⟨l1, l2, rfl⟩
  rw [List.foldl_append, List.foldl_cons] at htrue ⊢
  have hAtrue : (selectStep ct (l1.foldl (selectStep ct) st) a).2 a = true := by
    cases hb : (selectStep ct (l1.foldl (selectStep ct) st) a).2 a with
    | false =>
      have hf := @foldl_selectStep_false ct l2 _ _ hb
      rw [htrue] at hf
      simp at hf
    | true => rfl
  have hAd : (selectStep ct (l1.foldl (selectStep ct) st) a).2 d = false := by
    rcases selectStep_snd_cases ct (l1.foldl (selectStep ct) st) a with hc | hc
    · rw [hc] at hAtrue
      simp at hAtrue
    · rw [hc]
      show (if d ∈ bfs_from_cluster_tree ct a ∧ d ≠ a then false
        else (List.foldl (selectStep ct) st l1).2 d) = false
      rw [if_pos ⟨hd, hda⟩]
  exact @foldl_selectStep_false ct l2 _ _ hAd

theorem sortDesc_nodup {l : List Nat} (h : l.Nodup) : (sortDesc l).Nodup :=
  (sortDesc_perm l).nodup_iff.mpr h

theorem sortDesc_eq_of_perm {l1 l2 : List Nat} (h : List.Perm l1 l2) :
    sortDesc l1 = sortDesc l2 := by
  haveI : IsAntisymm Nat (fun x y : Nat => y ≤ x) :=
    ⟨fun a b h1 h2 => Nat.le_antisymm h2 h1⟩
  refine List.eq_of_perm_of_sorted ?_ (sortDesc_sorted l1) (sortDesc_sorted l2)
  exact (sortDesc_perm l1).trans (h.trans (sortDesc_perm l2).symm)

/-! ### The lambda sort and the bar loop -/

theorem insertByLambda_perm (a : CondensedTreeEdge) (l : CTree) :
    List.Perm (insertByLambda a l) (a :: l) := by
  induction l with
  | nil => simp [insertByLambda]
  | cons b t ih =>
    by_cases h : a.lambda_val ≤ b.lambda_val
    · simp [insertByLambda, h]
    · simp only [insertByLambda, if_neg h]
      exact (ih.cons b).trans (List.Perm.swap a b t)

theorem sortByLambda_perm (l : CTree) : List.Perm (sortByLambda l) l := by
  induction l with
  | nil => rfl
  | cons a t ih => exact (insertByLambda_perm a (sortByLambda t)).trans (ih.cons a)

theorem insertByLambda_sorted {l : CTree} (a : CondensedTreeEdge)
    (h : l.Pairwise (fun u v => u.lambda_val ≤ v.lambda_val)) :
    (insertByLambda a l).Pairwise (fun u v => u.lambda_val ≤ v.lambda_val) := by
  induction l with
  | nil => simp [insertByLambda]
  | cons b t ih =>
    rcases List.pairwise_cons.mp h with ⟨hb, ht⟩
    by_cases hba : a.lambda_val ≤ b.lambda_val
    · simp only [insertByLambda, if_pos hba]
      refine List.Pairwise.cons ?_ h
      intro x hx
      rcases List.mem_cons.mp hx with rfl | hx
      · exact hba
      · exact le_trans hba (hb x hx)
    · simp only [insertByLambda, if_neg hba]
      refine List.Pairwise.cons ?_ (ih ht)
      intro x hx
      have := (insertByLambda_perm a t).mem_iff.mp hx
      rcases List.mem_cons.mp this with rfl | hx2
      · exact le_of_not_le hba
      · exact hb x hx2

theorem sortByLambda_sorted (l : CTree) :
    (sortByLambda l).Pairwise (fun u v => u.lambda_val ≤ v.lambda_val) := by
  induction l with
  | nil => simp [sortByLambda]
  | cons a t ih => exact insertByLambda_sorted a ih

theorem sortByLambda_sizes_sum (l : CTree) :
    ((sortByLambda l).map (fun e => (e.child_size : Rat))).sum =
      (l.map (fun e => (e.child_size : Rat))).sum :=
  ((sortByLambda_perm l).map (fun e => (e.child_size : Rat))).sum_eq

theorem barsFold_final_size (center : Rat) :
    ∀ (l : CTree) (lam s : Rat) (acc : BarAcc),
      (barsFold center l lam s acc).2.1 =
        s - (l.map (fun e => (e.child_size : Rat))).sum := by
  intro l
  induction l with
  | nil => intro lam s acc; simp [barsFold]
  | cons row rest ih =>
    intro lam s acc
    simp only [barsFold]
    rw [ih]
    simp only [List.map_cons, List.sum_cons]
    ring

theorem runningSizes_nonneg :
    ∀ (l : CTree) (s : Rat), s = (l.map (fun e => (e.child_size : Rat))).sum →
      ∀ q ∈ runningSizes s l, 0 ≤ q := by
  intro l
  induction l with
  | nil =>
    intro s hs q hq
    simp only [runningSizes, List.mem_singleton] at hq
    subst hq
    rw [hs]
    simp
  | cons row rest ih =>
    intro s hs q hq
    simp only [runningSizes, List.mem_cons] at hq
    rcases hq with rfl | hq
    · rw [hs]
      refine List.sum_nonneg ?_
      intro x hx
      rcases List.mem_map.mp hx with ⟨e, _, rfl⟩
      exact Nat.cast_nonneg _
    · refine ih (s - (row.child_size : Rat)) ?_ q hq
      rw [hs]
      simp only [List.map_cons, List.sum_cons]
      ring

theorem barsFold_widths (center : Rat) :
    ∀ (l : CTree) (lam s : Rat) (acc : BarAcc) (w : Rat),
      w ∈ (barsFold center l lam s acc).1.bar_widths →
        w ∈ acc.bar_widths ∨ w ∈ runningSizes s l := by
  intro l
  induction l with
  | nil =>
    intro lam s acc w hw
    exact Or.inl hw
  | cons row rest ih =>
    intro lam s acc w hw
    simp only [barsFold] at hw
    rcases ih _ _ _ w hw with hacc | hrun
    · by_cases hne : row.lambda_val ≠ lam
      · rw [if_pos hne] at hacc
        simp only [List.mem_append, List.mem_singleton] at hacc
        rcases hacc with h | rfl
        · exact Or.inl h
        · exact Or.inr (by simp [runningSizes])
      · rw [if_neg hne] at hacc
        exact Or.inl hacc
    · exact Or.inr (by simp [runningSizes, hrun])

theorem barsFold_tops (center : Rat) :
    ∀ (l : CTree) (lam s : Rat) (acc : BarAcc),
      l.Pairwise (fun u v => u.lambda_val ≤ v.lambda_val) →
      (∀ e ∈ l, lam ≤ e.lambda_val) →
      ∀ t ∈ (barsFold center l lam s acc).1.bar_tops, t ∈ acc.bar_tops ∨ 0 < t := by
  intro l
  induction l with
  | nil =>
    intro lam s acc _ _ t ht
    exact Or.inl ht
  | cons row rest ih =>
    intro lam s acc hpw hge t ht
    rcases List.pairwise_cons.mp hpw with ⟨hb, ht2⟩
    simp only [barsFold] at ht
    rcases ih _ _ _ ht2 (fun e he => hb e he) t ht with hacc | hpos
    · by_cases hne : row.lambda_val ≠ lam
      · rw [if_pos hne] at hacc
        simp only [List.mem_append, List.mem_singleton] at hacc
        rcases hacc with h | rfl
        · exact Or.inl h
        · refine Or.inr ?_
          have := hge row (by simp)
          have hlt : lam < row.lambda_val := lt_of_le_of_ne this (fun h => hne h.symm)
          linarith
      · rw [if_neg hne] at hacc
        exact Or.inl hacc
    · exact Or.inr hpos

/-- The `log_size=True` bar loop tracks the linear one: same bars except that
widths are the logs of the linear widths, and the final running size is the
log of the linear final size — the subtraction happens in linear space. -/
theorem barsFoldLog_lin (lg ex : Rat → Rat) (hinv : ∀ q, ex (lg q) = q)
    (center : Rat) :
    ∀ (l : CTree) (lam v : Rat) (accL accI : BarAcc),
      accL.bar_centers = accI.bar_centers →
      accL.bar_tops = accI.bar_tops →
      accL.bar_bottoms = accI.bar_bottoms →
      accL.bar_widths = accI.bar_widths.map lg →
      (barsFoldLog lg ex center l lam (lg v) accL).1.bar_centers =
          (barsFold center l lam v accI).1.bar_centers ∧
        (barsFoldLog lg ex center l lam (lg v) accL).1.bar_tops =
          (barsFold center l lam v accI).1.bar_tops ∧
        (barsFoldLog lg ex center l lam (lg v) accL).1.bar_bottoms =
          (barsFold center l lam v accI).1.bar_bottoms ∧
        (barsFoldLog lg ex center l lam (lg v) accL).1.bar_widths =
          (barsFold center l lam v accI).1.bar_widths.map lg ∧
        (barsFoldLog lg ex center l lam (lg v) accL).2.1 =
          lg ((barsFold center l lam v accI).2.1) ∧
        (barsFoldLog lg ex center l lam (lg v) accL).2.2 =
          (barsFold center l lam v accI).2.2 := by
  intro l
  induction l with
  | nil =>
    intro lam v accL accI h1 h2 h3 h4
    exact ⟨h1, h2, h3, h4, rfl, rfl⟩
  | cons row rest ih =>
    intro lam v accL accI h1 h2 h3 h4
    simp only [barsFoldLog, barsFold]
    rw [hinv v]
    by_cases hne : row.lambda_val ≠ lam
    · rw [if_pos hne, if_pos hne]
      exact ih row.lambda_val (v - (row.child_size : Rat)) _ _
        (by simp [h1]) (by simp [h2]) (by simp [h3]) (by simp [h4])
    · rw [if_neg hne, if_neg hne]
      exact ih row.lambda_val (v - (row.child_size : Rat)) _ _ h1 h2 h3 h4

/-! ### Failure propagation through `get_plot_data` -/

theorem leafXInit_none {leaves : List Nat} {sep : Rat} {n : Nat}
    (h : n ∉ leaves) : leafXInit leaves sep n = none := by
  unfold leafXInit
  have hfil : (leaves.zip (List.range leaves.length)).filter (fun p => p.1 = n) = [] := by
    rw [List.filter_eq_nil_iff]
    rintro ⟨a, i⟩ hmem hpn
    simp only [decide_eq_true_eq] at hpn
    subst hpn
    exact h (List.of_mem_zip hmem).1
  rw [hfil]
  rfl

theorem boundsBarsStep_none {tree : CTree} {scaling : Rat} {st : CoordState}
    {acc : PlotAcc} {c : Nat} (h : st.y c = none ∨ st.x c = none) :
    boundsBarsStep tree scaling st acc c = none := by
  unfold boundsBarsStep
  rcases h with h | h
  · rw [h]
  · rw [h]
    cases st.y c <;> rfl

theorem boundsBarsLoop_none_of_mem {tree : CTree} {scaling : Rat}
    {st : CoordState} {L : List Nat} {c : Nat} (hc : c ∈ L)
    (hfail : ∀ acc, boundsBarsStep tree scaling st acc c = none) :
    ∀ acc, boundsBarsLoop tree scaling st L acc = none := by
  induction L with
  | nil => simp at hc
  | cons a rest ih =>
    intro acc
    rcases List.mem_cons.mp hc with rfl | hc2
    · simp [boundsBarsLoop, hfail acc]
    · cases h : boundsBarsStep tree scaling st acc a with
      | none => simp [boundsBarsLoop, h]
      | some acc2 =>
        simp only [boundsBarsLoop, h]
        exact ih hc2 acc2

theorem get_plot_data_none_of_coords {tree : CTree} {sep : Rat}
    (h : cluster_coords tree sep = none) : get_plot_data tree sep = none := by
  unfold get_plot_data
  rw [h]

theorem get_plot_data_none_of_bounds {tree : CTree} {sep : Rat}
    {st : CoordState} {last_leaf root : Nat}
    (hcc : cluster_coords tree sep = some st)
    (hmax : listMax (tree.map (fun e => e.parent)) = some last_leaf)
    (hmin : listMin (tree.map (fun e => e.parent)) = some root)
    (hb : ∀ acc, boundsBarsLoop tree (scalingOf tree root) st
      (rangeDesc last_leaf root) acc = none) :
    get_plot_data tree sep = none := by
  unfold get_plot_data
  rw [hcc, hmax, hmin]
  dsimp only
  rw [hb]

/-- Inversion of `get_leaves`: with a nonempty cluster tree it runs the DFS
from the minimum cluster-tree parent. -/
theorem get_leaves_inv {tree : CTree} {L : List Nat}
    (h : get_leaves tree = some L) :
    ∃ root, listMin ((tree.filter (fun e => 1 < e.child_size)).map
        (fun e => e.parent)) = some root ∧
      L = recurse_leaf_dfs (tree.filter (fun e => 1 < e.child_size))
        ((tree.filter (fun e => 1 < e.child_size)).length + 1) root := by
  unfold get_leaves at h
  cases hmin : listMin ((tree.filter (fun e => 1 < e.child_size)).map
      (fun e => e.parent)) with
  | none => rw [hmin] at h; cases h
  | some root =>
    rw [hmin] at h
    simp only [Option.some.injEq] at h
    exact ⟨root, rfl, h.symm⟩

/-- Inversion of `cluster_coords`. -/
theorem cluster_coords_inv {tree : CTree} {sep : Rat} {st : CoordState}
    (h : cluster_coords tree sep = some st) :
    ∃ leaves last_leaf root, get_leaves tree = some leaves ∧
      listMax (tree.map (fun e => e.parent)) = some last_leaf ∧
      listMin (tree.map (fun e => e.parent)) = some root ∧
      coordsLoop tree (rangeDesc last_leaf root)
        { x := leafXInit leaves sep
          y := fun m => if m = root then some 0 else none } = some st := by
  unfold cluster_coords at h
  cases h1 : get_leaves tree with
  | none => rw [h1] at h; cases h
  | some leaves =>
    rw [h1] at h
    cases h2 : listMax (tree.map (fun e => e.parent)) with
    | none => rw [h2] at h; cases h
    | some last_leaf =>
      rw [h2] at h
      cases h3 : listMin (tree.map (fun e => e.parent)) with
      | none => rw [h3] at h; cases h
      | some root =>
        rw [h3] at h
        exact ⟨leaves, last_leaf, root, rfl, rfl, rfl, h⟩

theorem get_leaves_eq {tree : CTree} {root : Nat}
    (hmin : listMin ((tree.filter (fun e => 1 < e.child_size)).map
      (fun e => e.parent)) = some root) :
    get_leaves tree = some (recurse_leaf_dfs (tree.filter (fun e => 1 < e.child_size))
      ((tree.filter (fun e => 1 < e.child_size)).length + 1) root) := by
  unfold get_leaves
  rw [hmin]

theorem cluster_coords_eq_loop {tree : CTree} {sep : Rat} {leaves : List Nat}
    {last_leaf root : Nat}
    (h1 : get_leaves tree = some leaves)
    (h2 : listMax (tree.map (fun e => e.parent)) = some last_leaf)
    (h3 : listMin (tree.map (fun e => e.parent)) = some root) :
    cluster_coords tree sep = coordsLoop tree (rangeDesc last_leaf root)
      { x := leafXInit leaves sep
        y := fun m => if m = root then some 0 else none } := by
  unfold cluster_coords
  rw [h1, h2, h3]

/-! ### Concrete example trees used by the witnesses -/

/-! ### The claims -/

/-- C7: `MinimumSpanningTree.plot` rejects inputs with more than 32767 points
by warning and returning `None` (no exception, no projection attempted); at
or below the threshold the guard does not fire and a projection is chosen. -/
theorem C7_mst_size_guard :
    ∀ (n_points n_dims : Nat),
      (32767 < n_points → mst_plot true n_points n_dims = Except.ok none) ∧
      (n_points ≤ 32767 →
        ∃ pk, mst_plot true n_points n_dims = Except.ok (some pk)) := by
  intro n d
  constructor
  · intro h
    simp [mst_plot, h]
  · intro h
    refine ⟨if 2 < d then (if 32 < d then ProjectionKind.pcaThenTsne
      else ProjectionKind.tsneDirect) else ProjectionKind.identityCopy, ?_⟩
    simp [mst_plot, Nat.not_lt.mpr h]

theorem C7_mst_size_guard_witness :
    mst_plot true 32768 5 = Except.ok none ∧
      ∃ pk, mst_plot true 32767 5 = Except.ok (some pk) :=
  ⟨(C7_mst_size_guard 32768 5).1 (by decide),
    (C7_mst_size_guard 32767 5).2 (by decide)⟩

/-- C8: without matplotlib, `CondensedTree.plot` fails with a
missing-dependency error; with it, the rendering path consumes exactly the
`get_plot_data` layout, which is computed identically in both worlds (it has
no renderer parameter at all). -/
theorem C8_plot_missing_dependency :
    ∀ (tree : CTree) (sep : Rat),
      condensed_tree_plot false tree sep = Except.error
        "You must install the matplotlib library to plot the condensed tree. Use get_plot_data to calculate the relevant data without plotting." ∧
      condensed_tree_plot true tree sep = Except.ok (get_plot_data tree sep) := by
  intro tree sep
  exact ⟨rfl, rfl⟩

/-- C9: on a condensed tree with no `child_size > 1` edge, `_get_leaves`
takes the minimum of an empty parent array and fails (`none`), and so does
`get_plot_data`, which calls it first; a non-empty cluster tree is an
unstated precondition of the layout interface. -/
theorem C9_empty_cluster_tree_fails :
    ∀ (tree : CTree) (sep : Rat), (∀ e ∈ tree, e.child_size ≤ 1) →
      get_leaves tree = none ∧ get_plot_data tree sep = none := by
  intro tree sep h
  have hct : tree.filter (fun e => 1 < e.child_size) = [] := by
    rw [List.filter_eq_nil_iff]
    intro e he
    simp only [decide_eq_true_eq, Nat.not_lt]
    exact h e he
  have hgl : get_leaves tree = none := by
    unfold get_leaves
    rw [hct]
    rfl
  refine ⟨hgl, ?_⟩
  apply get_plot_data_none_of_coords
  unfold cluster_coords
  rw [hgl]

theorem C9_empty_cluster_tree_fails_witness :
    get_leaves exTree5 = none ∧ get_plot_data exTree5 1 = none :=
  C9_empty_cluster_tree_fails exTree5 1 (by decide)

/-- C10: a cluster node with three or more cluster-tree children makes the
two-element destructuring in `get_plot_data` fail, so no layout is produced
(`none`); the layout is only total when every cluster node has at most two
cluster-tree children. -/
theorem C10_three_children_fails :
    ∀ (tree : CTree) (sep : Rat) (p : Nat),
      3 ≤ (tree.filter (fun e => e.parent = p ∧ 1 < e.child_size)).length →
      get_plot_data tree sep = none := by
  intro tree sep p h3
  have hne : tree.filter (fun e => e.parent = p ∧ 1 < e.child_size) ≠ [] := by
    intro h0
    rw [h0] at h3
    simp at h3
  obtain ⟨e, he⟩ := List.exists_mem_of_ne_nil _ hne
  rw [List.mem_filter] at he
  have he2 := of_decide_eq_true he.2
  have hect : e ∈ tree.filter (fun e => 1 < e.child_size) := by
    rw [List.mem_filter]
    exact ⟨he.1, by simp [he2.2]⟩
  apply get_plot_data_none_of_coords
  cases hmin : listMin ((tree.filter (fun e => 1 < e.child_size)).map
      (fun e => e.parent)) with
  | none =>
    rw [listMin_eq_none_iff, List.map_eq_nil_iff] at hmin
    rw [hmin] at hect
    simp at hect
  | some rct =>
    cases hmax : listMax (tree.map (fun e => e.parent)) with
    | none =>
      rw [listMax_eq_none_iff, List.map_eq_nil_iff] at hmax
      rw [hmax] at he
      simp at he
    | some last_leaf =>
      cases hminp : listMin (tree.map (fun e => e.parent)) with
      | none =>
        rw [listMin_eq_none_iff, List.map_eq_nil_iff] at hminp
        rw [hminp] at he
        simp at he
      | some root =>
        rw [cluster_coords_eq_loop (get_leaves_eq hmin) hmax hminp]
        refine coordsLoop_none_of_mem ?_ (coordStep_none_of_three h3) _
        rw [mem_rangeDesc]
        have hpmem : p ∈ tree.map (fun e => e.parent) := by
          rw [← he2.1]
          exact List.mem_map_of_mem _ he.1
        exact ⟨listMin_le hminp p hpmem, le_listMax hmax p hpmem⟩

theorem C10_three_children_fails_witness :
    get_plot_data exTree3 1 = none :=
  C10_three_children_fails exTree3 1 4 (by decide)

/-- C5: on a forest-shaped tree in condensed-tree encoding (ids increase
from parent to child, no node has two parents), `_bfs_from_cluster_tree`
returns every node reachable from the start exactly once, and from the root
of a connected tree its length is the total number of forest nodes; the same
holds for `_bfs_from_linkage_tree` from the final merge node of a well-formed
linkage. -/
theorem C5_bfs_completeness :
    (∀ (tree : CTree) (s : Nat) (mu : Nat → Nat),
      (∀ e ∈ tree, mu e.child < mu e.parent) →
      (tree.map (fun e => e.child)).Nodup →
      (bfs_from_cluster_tree tree s).Nodup ∧
      (∀ x, x ∈ bfs_from_cluster_tree tree s ↔ Reaches (edgeRel tree) s x) ∧
      (tree ≠ [] → (∀ e ∈ tree, Reaches (edgeRel tree) s e.parent) →
        (bfs_from_cluster_tree tree s).length = (forestNodes tree).card)) ∧
    (∀ (hierarchy : List SingleLinkageRow),
      (∀ i, ∀ hi : i < hierarchy.length,
        (hierarchy.get ⟨i, hi⟩).left < hierarchy.length + 1 + i ∧
        (hierarchy.get ⟨i, hi⟩).right < hierarchy.length + 1 + i) →
      (linkChildren hierarchy).Nodup →
      (bfs_from_linkage_tree hierarchy (2 * hierarchy.length)).Nodup ∧
      (∀ x, x ∈ bfs_from_linkage_tree hierarchy (2 * hierarchy.length) ↔
        Reaches (linkRel hierarchy) (2 * hierarchy.length) x) ∧
      ((∀ x, x < 2 * hierarchy.length → x ∈ linkChildren hierarchy) →
        (bfs_from_linkage_tree hierarchy (2 * hierarchy.length)).length =
          2 * hierarchy.length + 1)) := by
  constructor
  · intro tree s mu H Hnd
    exact ⟨bfs_cluster_nodup H Hnd s, bfs_cluster_mem H s,
      fun hne hconn => bfs_cluster_length H Hnd hne hconn⟩
  · intro hierarchy hv Hnd
    have Hval : ∀ (i : Nat) (r : SingleLinkageRow), hierarchy[i]? = some r →
        r.left < hierarchy.length + 1 + i ∧ r.right < hierarchy.length + 1 + i := by
      intro i r hr
      rcases List.getElem?_eq_some_iff.mp hr with ⟨hi, hg⟩
      have hvi := hv i hi
      rw [List.get_eq_getElem, hg] at hvi
      exact hvi
    refine ⟨bfs_linkage_nodup Hval Hnd _, bfs_linkage_mem Hval _, ?_⟩
    intro hcov
    refine bfs_linkage_length Hval Hnd ?_
    intro x hx
    have hmem := hcov x hx
    rw [linkChildren, List.mem_flatMap] at hmem
    rcases hmem with ⟨r, hr, hxr⟩
    rcases List.mem_iff_getElem.mp hr with ⟨i, hi, hg⟩
    refine ⟨i, r, List.getElem?_eq_some_iff.mpr ⟨hi, hg⟩, ?_⟩
    simpa using hxr

theorem C5_bfs_completeness_witness :
    (bfs_from_cluster_tree exTree4 4).Nodup ∧
    (bfs_from_cluster_tree exTree4 4).length = (forestNodes exTree4).card ∧
    (bfs_from_linkage_tree exLinkage1 (2 * exLinkage1.length)).Nodup ∧
    (bfs_from_linkage_tree exLinkage1 (2 * exLinkage1.length)).length =
      2 * exLinkage1.length + 1 := by
  have hp : ∀ e ∈ exTree4, e.parent = 4 ∨ e.parent = 5 ∨ e.parent = 6 := by decide
  have hconn : ∀ e ∈ exTree4, Reaches (edgeRel exTree4) 4 e.parent := by
    intro e he
    rcases hp e he with h | h | h <;> rw [h]
    · exact Reaches.refl 4
    · exact ⟨1, ReachN.step ⟨⟨4, 5, 1, 2⟩, by decide, rfl, rfl⟩ (ReachN.refl 5)⟩
    · exact ⟨1, ReachN.step ⟨⟨4, 6, 1, 2⟩, by decide, rfl, rfl⟩ (ReachN.refl 6)⟩
  have h1 := C5_bfs_completeness.1 exTree4 4 (fun n => if n < 4 then 0 else 7 - n)
    (by decide) (by decide)
  have h2 := C5_bfs_completeness.2 exLinkage1 (by decide) (by decide)
  exact ⟨h1.1, h1.2.2 (by decide) hconn, h2.1, h2.2.2 (by decide)⟩

/-- C6: on a condensed tree with at least one cluster edge, `_get_leaves`
runs the DFS from the minimum cluster-tree parent and returns exactly the
cluster-tree nodes without cluster-tree children, each exactly once (it is a
pure function of the tree, hence reproducible across calls). -/
theorem C6_leaf_completeness :
    ∀ (tree : CTree),
      (∀ e ∈ tree, 1 < e.child_size → e.parent < e.child) →
      ((tree.filter (fun e => 1 < e.child_size)).map (fun e => e.child)).Nodup →
      ∀ root, listMin ((tree.filter (fun e => 1 < e.child_size)).map
        (fun e => e.parent)) = some root →
      (∀ e ∈ tree.filter (fun e => 1 < e.child_size),
        Reaches (edgeRel (tree.filter (fun e => 1 < e.child_size))) root e.parent) →
      ∃ L, get_leaves tree = some L ∧ L.Nodup ∧
        (∀ x, x ∈ L ↔
          ((∃ e ∈ tree.filter (fun e => 1 < e.child_size),
              e.parent = x ∨ e.child = x) ∧
            noClusterChildren (tree.filter (fun e => 1 < e.child_size)) x)) := by
  intro tree Hlt Hnd root hroot Hconn
  have Hltct : ∀ e ∈ tree.filter (fun e => 1 < e.child_size), e.parent < e.child := by
    intro e he
    rw [List.mem_filter] at he
    exact Hlt e he.1 (of_decide_eq_true he.2)
  have Hmu := lt_measure Hltct
  have hbound : ∀ k y, ReachN (edgeRel (tree.filter (fun e => 1 < e.child_size)))
      k root y → k < (tree.filter (fun e => 1 < e.child_size)).length + 1 := by
    intro k y hk
    have := cluster_reachN_le Hmu hk
    omega
  refine ⟨_, get_leaves_eq hroot, dfs_nodup Hmu Hnd _ root hbound, ?_⟩
  intro x
  rw [dfs_mem _ root hbound x]
  constructor
  · rintro ⟨⟨k, hk⟩, hcl⟩
    refine ⟨?_, hcl⟩
    cases k with
    | zero =>
      rw [reachN_zero] at hk
      subst hk
      rcases List.mem_map.mp (listMin_mem hroot) with ⟨e, he, hp⟩
      exact ⟨e, he, Or.inl hp⟩
    | succ k =>
      rcases reachN_tail_ex hk with ⟨p, _, hpx⟩
      rcases hpx with ⟨e, he, _, hc⟩
      exact ⟨e, he, Or.inr hc⟩
  · rintro ⟨⟨e, he, hnode⟩, hcl⟩
    refine ⟨?_, hcl⟩
    rcases hnode with hp | hc
    · exact absurd hp (hcl e he)
    · subst hc
      exact reaches_snoc (Hconn e he) ⟨e, he, rfl, rfl⟩

theorem C6_leaf_completeness_witness :
    ∃ L, get_leaves exTree4 = some L ∧ L.Nodup ∧
      (5 ∈ L ∧ 6 ∈ L ∧ 4 ∉ L) := by
  have hp : ∀ e ∈ exTree4.filter (fun e => 1 < e.child_size), e.parent = 4 := by
    decide
  have hconn : ∀ e ∈ exTree4.filter (fun e => 1 < e.child_size),
      Reaches (edgeRel (exTree4.filter (fun e => 1 < e.child_size))) 4 e.parent := by
    intro e he
    rw [hp e he]
    exact Reaches.refl 4
  obtain ⟨L, h1, h2, h3⟩ := C6_leaf_completeness exTree4 (by decide) (by decide) 4
    (by decide) hconn
  refine ⟨L, h1, h2, ?_, ?_, ?_⟩
  · rw [h3 5]
    refine ⟨⟨⟨4, 5, 1, 2⟩, by decide, Or.inr rfl⟩, ?_⟩
    intro e he
    rw [hp e he]
    decide
  · rw [h3 6]
    refine ⟨⟨⟨4, 6, 1, 2⟩, by decide, Or.inr rfl⟩, ?_⟩
    intro e he
    rw [hp e he]
    decide
  · rw [h3 4]
    rintro ⟨-, hcl⟩
    exact hcl ⟨4, 5, 1, 2⟩ (by decide) rfl

theorem select_clusters_eq (tree : CTree) (keys : List Nat) (stability : Nat → Rat) :
    select_clusters tree keys stability =
      ((sortDesc keys).dropLast).filter (fun n =>
        (((sortDesc keys).dropLast).foldl
          (selectStep (tree.filter (fun e => 1 < e.child_size)))
          (stability, fun n => decide (n ∈ (sortDesc keys).dropLast))).2 n) := rfl

/-- C2: the set returned by `_select_clusters` is an antichain of the cluster
tree — no returned node is a strict ancestor of another returned node — and
the root (the minimum id, last in the descending key order) is dropped from
the processed list and therefore never returned. -/
theorem C2_selection_antichain :
    ∀ (tree : CTree) (keys : List Nat) (stability : Nat → Rat),
      (∀ e ∈ tree, 1 < e.child_size → e.parent < e.child) →
      (∀ a ∈ select_clusters tree keys stability,
          ∀ b ∈ select_clusters tree keys stability, a ≠ b →
            ¬ Reaches (edgeRel (tree.filter (fun e => 1 < e.child_size))) a b) ∧
      (∀ root, listMin (tree.map (fun e => e.parent)) = some root →
          keys.Nodup → root ∈ keys → (∀ k ∈ keys, root ≤ k) →
          root ∉ select_clusters tree keys stability) := by
  intro tree keys stability Hlt
  have Hltct : ∀ e ∈ tree.filter (fun e => 1 < e.child_size), e.parent < e.child := by
    intro e he
    rw [List.mem_filter] at he
    exact Hlt e he.1 (of_decide_eq_true he.2)
  have Hmu := lt_measure Hltct
  constructor
  · intro a ha b hb hab hr
    rw [select_clusters_eq, List.mem_filter] at ha hb
    have hbfs : b ∈ bfs_from_cluster_tree (tree.filter (fun e => 1 < e.child_size)) a :=
      (bfs_cluster_mem Hmu a b).mpr hr
    have hfalse := foldl_selected_descendants ha.1 ha.2 b hbfs (Ne.symm hab)
    rw [hb.2] at hfalse
    simp at hfalse
  · intro root hroot hk hkr hkmin hmem
    rw [select_clusters_eq, List.mem_filter] at hmem
    have hin : root ∈ (sortDesc keys).dropLast := hmem.1
    have hfe := sorted_nodup_dropLast_eq_filter (sortDesc keys) root
      (sortDesc_sorted keys) (sortDesc_nodup hk)
      ((sortDesc_perm keys).mem_iff.mpr hkr)
      (fun x hx => hkmin x ((sortDesc_perm keys).mem_iff.mp hx))
    rw [hfe, List.mem_filter] at hin
    exact absurd hin.2 (by simp)

theorem C2_selection_antichain_witness :
    ¬ Reaches (edgeRel (exTree1.filter (fun e => 1 < e.child_size))) 6 7 ∧
      5 ∉ select_clusters exTree1 [5, 6, 7] exStab1 := by
  have h := C2_selection_antichain exTree1 [5, 6, 7] exStab1 (by decide)
  exact ⟨h.1 6 (by with_unfolding_all decide) 7 (by with_unfolding_all decide) (by decide),
    h.2 5 (by decide) (by decide) (by decide) (by decide)⟩

theorem selectClustersSpec_eq (tree : CTree) (stability : Nat → Rat) :
    selectClustersSpec tree stability =
      ((sortDesc (clusterNodeIds tree)).filter
        (fun n => n ≠ (listMin (tree.map (fun e => e.parent))).getD 0)).filter
        (fun n =>
          (((sortDesc (clusterNodeIds tree)).filter
            (fun n => n ≠ (listMin (tree.map (fun e => e.parent))).getD 0)).foldl
            (selectStep (tree.filter (fun e => 1 < e.child_size)))
            (stability, fun n => decide (n ∈ (sortDesc (clusterNodeIds tree)).filter
              (fun n => n ≠ (listMin (tree.map (fun e => e.parent))).getD 0)))).2 n) :=
  rfl

/-- C1: `_select_clusters` (with the stability dict keyed exactly by the
cluster-tree node ids) processes the cluster-tree node ids excluding the root
in descending order with the excess-of-mass step — it coincides with the
specification-side `selectClustersSpec` — and on the spec example (root 5,
leaf children 6 and 7, stability 1.2 and 0.5) it returns the set `{6, 7}`. -/
theorem C1_select_refines :
    (∀ (tree : CTree) (keys : List Nat) (stability : Nat → Rat),
      (∀ e ∈ tree, 1 < e.child_size → e.parent < e.child) →
      keys.Nodup →
      keys.toFinset = (clusterNodeIds tree).toFinset →
      select_clusters tree keys stability = selectClustersSpec tree stability) ∧
    (select_clusters exTree1 [5, 6, 7] exStab1).toFinset = ({6, 7} : Finset Nat) := by
  constructor
  · intro tree keys stability Hlt hk hset
    have hperm : List.Perm keys (clusterNodeIds tree) :=
      List.perm_of_nodup_nodup_toFinset_eq hk (List.nodup_dedup _) hset
    have hsort : sortDesc keys = sortDesc (clusterNodeIds tree) :=
      sortDesc_eq_of_perm hperm
    cases hmin : listMin (tree.map (fun e => e.parent)) with
    | none =>
      rw [listMin_eq_none_iff, List.map_eq_nil_iff] at hmin
      subst hmin
      have h0 : keys.toFinset = (∅ : Finset Nat) := by
        simpa [clusterNodeIds] using hset
      have hkeys : keys = [] := by simpa using h0
      subst hkeys
      rfl
    | some root =>
      have hrootmem : root ∈ sortDesc (clusterNodeIds tree) := by
        rw [(sortDesc_perm _).mem_iff, clusterNodeIds, List.mem_dedup,
          List.mem_append]
        exact Or.inl (listMin_mem hmin)
      have hrootmin : ∀ x ∈ sortDesc (clusterNodeIds tree), root ≤ x := by
        intro x hx
        rw [(sortDesc_perm _).mem_iff, clusterNodeIds, List.mem_dedup,
          List.mem_append] at hx
        rcases hx with hx | hx
        · exact listMin_le hmin x hx
        · rcases List.mem_map.mp hx with ⟨e, he, rfl⟩
          rw [List.mem_filter] at he
          have h1 := Hlt e he.1 (of_decide_eq_true he.2)
          have h2 := listMin_le hmin e.parent (List.mem_map_of_mem _ he.1)
          omega
      have hdrop : (sortDesc (clusterNodeIds tree)).dropLast =
          (sortDesc (clusterNodeIds tree)).filter (fun n => n ≠ root) :=
        sorted_nodup_dropLast_eq_filter _ root (sortDesc_sorted _)
          (sortDesc_nodup (List.nodup_dedup _)) hrootmem hrootmin
      rw [select_clusters_eq, selectClustersSpec_eq, hmin]
      simp only [Option.getD_some]
      rw [hsort, hdrop]
  · with_unfolding_all decide

theorem C1_select_refines_witness :
    select_clusters exTree1 [5, 6, 7] exStab1 = selectClustersSpec exTree1 exStab1 :=
  C1_select_refines.1 exTree1 [5, 6, 7] exStab1 (by decide) (by decide) (by decide)

theorem coordStep_two {tree : CTree} {st : CoordState} {c : Nat}
    {l r : CondensedTreeEdge}
    (hsplit : tree.filter (fun e => e.parent = c ∧ 1 < e.child_size) = [l, r]) :
    coordStep tree st c =
      match st.x l.child, st.x r.child with
      | some xl, some xr =>
        some { x := fun m => if m = c then some ((xl + xr) / 2) else st.x m
               y := fun m => if m = r.child then some r.lambda_val
                     else if m = l.child then some l.lambda_val
                     else st.y m }
      | _, _ => none := by
  unfold coordStep
  rw [hsplit]
  rw [if_pos (by simp)]

theorem coordStep_skip {tree : CTree} {st : CoordState} {c : Nat}
    (h : ¬ 1 < (tree.filter (fun e => e.parent = c ∧ 1 < e.child_size)).length) :
    coordStep tree st c = some st := by
  unfold coordStep
  rw [if_neg h]

theorem filter_and_sublist {tree : CTree} {c : Nat} :
    List.Sublist (tree.filter (fun e => e.parent = c ∧ 1 < e.child_size))
      (tree.filter (fun e => 1 < e.child_size)) := by
  induction tree with
  | nil => simp
  | cons e t ih =>
    by_cases h1 : e.parent = c ∧ 1 < e.child_size
    · have ha : decide (e.parent = c ∧ 1 < e.child_size) = true := decide_eq_true h1
      have hb : decide (1 < e.child_size) = true := decide_eq_true h1.2
      simp only [List.filter_cons, ha, hb, if_true]
      exact ih.cons₂ e
    · have ha : decide (e.parent = c ∧ 1 < e.child_size) = false :=
        decide_eq_false h1
      by_cases h2 : 1 < e.child_size
      · have hb : decide (1 < e.child_size) = true := decide_eq_true h2
        simp only [List.filter_cons, ha, hb, if_true, Bool.false_eq_true, if_false]
        exact ih.cons e
      · have hb : decide (1 < e.child_size) = false := decide_eq_false h2
        simp only [List.filter_cons, ha, hb, Bool.false_eq_true, if_false]
        exact ih

/-- C3 counterexample: `exTree2` contains a node (the root, 4) with exactly
one cluster-tree child, and `get_plot_data` fails on it (KeyError on the
never-assigned coordinates) instead of producing a layout. -/
theorem C3_single_child_layout_counterexample :
    (exTree2.filter (fun e => e.parent = 4 ∧ 1 < e.child_size)).length = 1 ∧
      get_plot_data exTree2 1 = none := by
  constructor
  · decide
  · with_unfolding_all decide

/-- C3 (amended): on a forest-shaped condensed tree, a node with exactly two
cluster-tree children is placed at the mean of its children's x coordinates
and each child's y is set to its split lambda; but a node with exactly one
cluster-tree child is skipped by the placement loop, its own coordinates are
never assigned, and `get_plot_data` fails (`none`) on every such tree rather
than producing a layout. -/
theorem C3_layout_two_children_amended :
    ∀ (tree : CTree),
      (∀ e ∈ tree, 1 < e.child_size → e.parent < e.child) →
      ((tree.filter (fun e => 1 < e.child_size)).map (fun e => e.child)).Nodup →
      (∀ (sep : Rat) (st : CoordState), cluster_coords tree sep = some st →
        ∀ (c : Nat) (l r : CondensedTreeEdge),
          tree.filter (fun e => e.parent = c ∧ 1 < e.child_size) = [l, r] →
          ∃ xl xr, st.x l.child = some xl ∧ st.x r.child = some xr ∧
            st.x c = some ((xl + xr) / 2) ∧
            st.y l.child = some l.lambda_val ∧ st.y r.child = some r.lambda_val) ∧
      (∀ (sep : Rat) (p : Nat),
        (tree.filter (fun e => e.parent = p ∧ 1 < e.child_size)).length = 1 →
        get_plot_data tree sep = none) := by
  intro tree Hlt Hnd
  have Hltct : ∀ e ∈ tree.filter (fun e => 1 < e.child_size), e.parent < e.child := by
    intro e he
    rw [List.mem_filter] at he
    exact Hlt e he.1 (of_decide_eq_true he.2)
  constructor
  · intro sep st hcc c l r hsplit
    obtain ⟨leaves, last_leaf, root, hgl, hmax, hmin, hloop⟩ := cluster_coords_inv hcc
    have hl : l ∈ tree.filter (fun e => e.parent = c ∧ 1 < e.child_size) := by
      rw [hsplit]; simp
    have hrr : r ∈ tree.filter (fun e => e.parent = c ∧ 1 < e.child_size) := by
      rw [hsplit]; simp
    rw [List.mem_filter] at hl hrr
    have hl2 := of_decide_eq_true hl.2
    have hr2 := of_decide_eq_true hrr.2
    have hlct : l ∈ tree.filter (fun e => 1 < e.child_size) := by
      rw [List.mem_filter]
      exact ⟨hl.1, by simp [hl2.2]⟩
    have hrct : r ∈ tree.filter (fun e => 1 < e.child_size) := by
      rw [List.mem_filter]
      exact ⟨hrr.1, by simp [hr2.2]⟩
    have hcl : c < l.child := hl2.1 ▸ Hltct l hlct
    have hcr2 : c < r.child := hr2.1 ▸ Hltct r hrct
    have hlr : l.child ≠ r.child := by
      have hsub : List.Sublist [l, r] (tree.filter (fun e => 1 < e.child_size)) :=
        hsplit ▸ filter_and_sublist
      have := (hsub.map (fun e => e.child)).nodup Hnd
      simpa using this
    have hcr : c ∈ rangeDesc last_leaf root := by
      rw [mem_rangeDesc]
      have hpc : c ∈ tree.map (fun e => e.parent) := by
        rw [← hl2.1]
        exact List.mem_map_of_mem _ hl.1
      exact ⟨listMin_le hmin c hpc, le_listMax hmax c hpc⟩
    rcases List.append_of_mem hcr with ⟨L1, L2, hdecomp⟩
    have hpw := rangeDesc_pairwise last_leaf root
    rw [hdecomp] at hpw
    rcases List.pairwise_append.mp hpw with ⟨-, hpw2, -⟩
    rcases List.pairwise_cons.mp hpw2 with ⟨hL2lt, -⟩
    rw [hdecomp, coordsLoop_append] at hloop
    cases h1 : coordsLoop tree L1
        { x := leafXInit leaves sep
          y := fun m => if m = root then some 0 else none } with
    | none => rw [h1] at hloop; exact Option.noConfusion hloop
    | some st1 =>
      rw [h1] at hloop
      have hloop2 : coordsLoop tree (c :: L2) st1 = some st := hloop
      simp only [coordsLoop] at hloop2
      rw [coordStep_two hsplit] at hloop2
      cases hxl : st1.x l.child with
      | none => rw [hxl] at hloop2; exact Option.noConfusion hloop2
      | some xl =>
        cases hxr : st1.x r.child with
        | none => rw [hxl, hxr] at hloop2; exact Option.noConfusion hloop2
        | some xr =>
          rw [hxl, hxr] at hloop2
          have hL2 : coordsLoop tree L2
              { x := fun m => if m = c then some ((xl + xr) / 2) else st1.x m
                y := fun m => if m = r.child then some r.lambda_val
                      else if m = l.child then some l.lambda_val
                      else st1.y m } = some st := hloop2
          have hnotc : c ∉ L2 := fun hc => absurd (hL2lt c hc) (by omega)
          have hnotl : l.child ∉ L2 := fun hc => absurd (hL2lt _ hc) (by omega)
          have hnotr : r.child ∉ L2 := fun hc => absurd (hL2lt _ hc) (by omega)
          have hyfree : ∀ q, q ∈ [l.child, r.child] → ∀ m ∈ L2, ∀ e ∈ tree,
              ¬ (e.parent = m ∧ e.child = q ∧ 1 < e.child_size) := by
            rintro q hq m hm e he ⟨hep, hec, hes⟩
            have hqct : edgeRel (tree.filter (fun e => 1 < e.child_size)) m q := by
              refine ⟨e, ?_, hep, hec⟩
              rw [List.mem_filter]
              exact ⟨he, by simp [hes]⟩
            have hqc : edgeRel (tree.filter (fun e => 1 < e.child_size)) c q := by
              rcases List.mem_cons.mp hq with rfl | hq2
              · exact ⟨l, hlct, hl2.1, rfl⟩
              · rw [List.mem_singleton] at hq2
                subst hq2
                exact ⟨r, hrct, hr2.1, rfl⟩
            have := edgeRel_unique Hnd _ _ _ hqct hqc
            subst this
            exact absurd (hL2lt m hm) (by omega)
          refine ⟨xl, xr, ?_, ?_, ?_, ?_, ?_⟩
          · rw [coordsLoop_x_stable hL2 hnotl]
            simp only [if_neg (by omega : l.child ≠ c)]
            exact hxl
          · rw [coordsLoop_x_stable hL2 hnotr]
            simp only [if_neg (by omega : r.child ≠ c)]
            exact hxr
          · rw [coordsLoop_x_stable hL2 hnotc]
            simp
          · rw [coordsLoop_y_stable hL2 (hyfree l.child (by simp))]
            simp [hlr]
          · rw [coordsLoop_y_stable hL2 (hyfree r.child (by simp))]
            simp
  · intro sep p hp1
    have hne : tree.filter (fun e => e.parent = p ∧ 1 < e.child_size) ≠ [] := by
      intro h0
      rw [h0] at hp1
      simp at hp1
    obtain ⟨e0, he0⟩ := List.exists_mem_of_ne_nil _ hne
    rw [List.mem_filter] at he0
    have he02 := of_decide_eq_true he0.2
    have he0ct : e0 ∈ tree.filter (fun e => 1 < e.child_size) := by
      rw [List.mem_filter]
      exact ⟨he0.1, by simp [he02.2]⟩
    cases hcc : cluster_coords tree sep with
    | none => exact get_plot_data_none_of_coords hcc
    | some st =>
      obtain ⟨leaves, last_leaf, root, hgl, hmax, hmin, hloop⟩ := cluster_coords_inv hcc
      obtain ⟨rootct, hrootct, hLdef⟩ := get_leaves_inv hgl
      have hbound : ∀ k y, ReachN (edgeRel (tree.filter (fun e => 1 < e.child_size)))
          k rootct y → k < (tree.filter (fun e => 1 < e.child_size)).length + 1 := by
        intro k y hk
        have := cluster_reachN_le (lt_measure Hltct) hk
        omega
      have hpleaves : p ∉ leaves := by
        intro hpl
        rw [hLdef] at hpl
        rcases (dfs_mem _ rootct hbound p).mp hpl with ⟨-, hcl⟩
        exact hcl e0 he0ct he02.1
      have hpr : p ∈ rangeDesc last_leaf root := by
        rw [mem_rangeDesc]
        have hpc : p ∈ tree.map (fun e => e.parent) := by
          rw [← he02.1]
          exact List.mem_map_of_mem _ he0.1
        exact ⟨listMin_le hmin p hpc, le_listMax hmax p hpc⟩
      rcases List.append_of_mem hpr with ⟨L1, L2, hdecomp⟩
      have hpw := rangeDesc_pairwise last_leaf root
      rw [hdecomp] at hpw
      rcases List.pairwise_append.mp hpw with ⟨-, hpw2, hcross⟩
      rcases List.pairwise_cons.mp hpw2 with ⟨hL2lt, -⟩
      have hnotL1 : p ∉ L1 := by
        intro hm
        exact absurd (hcross p hm p (by simp)) (by omega)
      have hnotL2 : p ∉ L2 := fun hm => absurd (hL2lt p hm) (by omega)
      rw [hdecomp, coordsLoop_append] at hloop
      cases h1 : coordsLoop tree L1
          { x := leafXInit leaves sep
            y := fun m => if m = root then some 0 else none } with
      | none => rw [h1] at hloop; exact Option.noConfusion hloop
      | some st1 =>
        rw [h1] at hloop
        have hloop2 : coordsLoop tree (p :: L2) st1 = some st := hloop
        simp only [coordsLoop] at hloop2
        rw [coordStep_skip (by omega)] at hloop2
        have hxp : st.x p = none := by
          rw [coordsLoop_x_stable hloop2 hnotL2,
            coordsLoop_x_stable h1 hnotL1]
          exact leafXInit_none hpleaves
        refine get_plot_data_none_of_bounds hcc hmax hmin ?_
        exact boundsBarsLoop_none_of_mem hpr
          (fun acc => boundsBarsStep_none (Or.inr hxp))

theorem C3_layout_amended_witness :
    get_plot_data exTree2 1 = none :=
  (C3_layout_two_children_amended exTree2 (by decide) (by decide)).2 1 4 (by decide)

/-- C4: for a fixed cluster node, the bar loop walks the children in
ascending lambda order starting from the total child-size sum; the running
size never goes negative and ends exactly at the leftover (zero — every
departing child is subtracted exactly once); every emitted bar width is one
of these nonnegative running sizes; when the start lambda is below all the
children's lambdas no bar of zero height is emitted (same-lambda children
only update the running size); and in `log_size` mode the same bars appear,
with the subtraction done in linear space and re-logged. -/
theorem C4_bar_mass_conservation :
    ∀ (tree : CTree) (c : Nat) (center lam0 : Rat),
      (∀ q ∈ runningSizes (nodeSizeSum tree c)
          (sortByLambda (nodeChildren tree c)), 0 ≤ q) ∧
      (barsFold center (sortByLambda (nodeChildren tree c)) lam0
          (nodeSizeSum tree c) ⟨[], [], [], []⟩).2.1 = 0 ∧
      (∀ w ∈ (barsFold center (sortByLambda (nodeChildren tree c)) lam0
          (nodeSizeSum tree c) ⟨[], [], [], []⟩).1.bar_widths, 0 ≤ w) ∧
      ((∀ e ∈ nodeChildren tree c, lam0 ≤ e.lambda_val) →
        ∀ t ∈ (barsFold center (sortByLambda (nodeChildren tree c)) lam0
          (nodeSizeSum tree c) ⟨[], [], [], []⟩).1.bar_tops, 0 < t) ∧
      (∀ lg ex : Rat → Rat, (∀ q, ex (lg q) = q) →
        (barsFoldLog lg ex center (sortByLambda (nodeChildren tree c)) lam0
            (lg (nodeSizeSum tree c)) ⟨[], [], [], []⟩).1.bar_widths =
          ((barsFold center (sortByLambda (nodeChildren tree c)) lam0
            (nodeSizeSum tree c) ⟨[], [], [], []⟩).1.bar_widths).map lg ∧
        (barsFoldLog lg ex center (sortByLambda (nodeChildren tree c)) lam0
            (lg (nodeSizeSum tree c)) ⟨[], [], [], []⟩).2.1 =
          lg ((barsFold center (sortByLambda (nodeChildren tree c)) lam0
            (nodeSizeSum tree c) ⟨[], [], [], []⟩).2.1) ∧
        (barsFoldLog lg ex center (sortByLambda (nodeChildren tree c)) lam0
            (lg (nodeSizeSum tree c)) ⟨[], [], [], []⟩).1.bar_tops =
          (barsFold center (sortByLambda (nodeChildren tree c)) lam0
            (nodeSizeSum tree c) ⟨[], [], [], []⟩).1.bar_tops ∧
        (barsFoldLog lg ex center (sortByLambda (nodeChildren tree c)) lam0
            (lg (nodeSizeSum tree c)) ⟨[], [], [], []⟩).1.bar_bottoms =
          (barsFold center (sortByLambda (nodeChildren tree c)) lam0
            (nodeSizeSum tree c) ⟨[], [], [], []⟩).1.bar_bottoms) := by
  intro tree c center lam0
  have hsum : nodeSizeSum tree c =
      ((sortByLambda (nodeChildren tree c)).map
        (fun e => (e.child_size : Rat))).sum :=
    (sortByLambda_sizes_sum (nodeChildren tree c)).symm
  refine ⟨?_, ?_, ?_, ?_, ?_⟩
  · exact runningSizes_nonneg _ _ hsum
  · rw [barsFold_final_size, ← hsum]
    ring
  · intro w hw
    rcases barsFold_widths center _ lam0 _ _ w hw with h | h
    · simp at h
    · exact runningSizes_nonneg _ _ hsum w h
  · intro hge t ht
    rcases barsFold_tops center _ lam0 _ _ (sortByLambda_sorted _)
      (fun e he => hge e ((sortByLambda_perm _).mem_iff.mp he)) t ht with h | h
    · simp at h
    · exact h
  · intro lg ex hinv
    have h := barsFoldLog_lin lg ex hinv center (sortByLambda (nodeChildren tree c))
      lam0 (nodeSizeSum tree c) ⟨[], [], [], []⟩ ⟨[], [], [], []⟩ rfl rfl rfl rfl
    exact ⟨h.2.2.2.1, h.2.2.2.2.1, h.2.1, h.2.2.1⟩

theorem C4_bar_mass_conservation_witness :
    (barsFold 0 (sortByLambda (nodeChildren exTree2 4)) 0
        (nodeSizeSum exTree2 4) ⟨[], [], [], []⟩).2.1 = 0 ∧
      (∀ t ∈ (barsFold 0 (sortByLambda (nodeChildren exTree2 4)) 0
        (nodeSizeSum exTree2 4) ⟨[], [], [], []⟩).1.bar_tops, 0 < t) ∧
      (barsFoldLog id id 0 (sortByLambda (nodeChildren exTree2 4)) 0
          (id (nodeSizeSum exTree2 4)) ⟨[], [], [], []⟩).1.bar_widths =
        ((barsFold 0 (sortByLambda (nodeChildren exTree2 4)) 0
          (nodeSizeSum exTree2 4) ⟨[], [], [], []⟩).1.bar_widths).map id := by
  have h := C4_bar_mass_conservation exTree2 4 0 0
  exact ⟨h.2.1, h.2.2.2.1 (by decide), (h.2.2.2.2 id id (fun q => rfl)).1⟩

end HdbscanPlots
